import Mathlib

/-!
# Interflow conversation-tree engine: a verification development

A shallow embedding of the conversation-tree engine of the Interflow
repository, together with proofs of its documented properties.

The data model follows `src/types/conversation.ts`.  The export helpers
(`exportToMarkdown`, `exportToJSON`, `exportToHTML` and `escapeHtml`)
follow `src/utils/exportUtils.ts`.  The tree store, answer parser,
context builder and session decoder are not part of the published
sources (only their unit tests, types and call sites are); those are
modelled from the specification, and each such definition is marked
`Modelled from the spec:` in its doc comment.

Representation choices:
* a JavaScript `Map` is modelled as an insertion-ordered association
  list `List (String × ConversationNode)`;
* `Date` values are modelled as `Nat` epoch timestamps, and the
  ISO-string round-trip performed by the JSON codec (an injective
  re-encoding) is abstracted as the identity on those timestamps;
* locale/precision-dependent numeric formatting (`toLocaleString`,
  `toFixed`) is abstracted as decimal `toString`; `cost` (a float in
  the source) is modelled as a `Nat` amount in fixed units;
* unbounded structural recursion of the source (tree traversals) is
  modelled with an explicit fuel parameter, instantiated with a bound
  that the accompanying theorems prove sufficient.
-/

namespace Interflow

/-- `AnswerSection` from `src/types/conversation.ts`. -/
structure AnswerSection where
  id : String
  text : String
  index : Nat
deriving Repr, DecidableEq

/-- `NodeType` from `src/types/conversation.ts`. -/
inductive NodeType where
  | question | answer | decision | summary | reference | action | image
deriving Repr, DecidableEq

/-- `Attachment` from `src/types/conversation.ts` (the fields the
exporters read: `type`, `url`, `filename`). -/
structure Attachment where
  type : String
  url : Option String
  filename : Option String
deriving Repr, DecidableEq

/-- `ImageGenerationConfig` from `src/types/conversation.ts` (the fields
the exporters read). -/
structure ImageGenerationConfig where
  model : String
  aspectRatio : String
  numberOfImages : Option Nat
  compositionMode : Option String
  compositionSourceCount : Nat
deriving Repr, DecidableEq

/-- `ImageNodeData` from `src/types/conversation.ts` (the fields the
exporters read). -/
structure ImageNodeData where
  generatedImages : List String
  generationConfig : ImageGenerationConfig
deriving Repr, DecidableEq

/-- `NodeMetadata` from `src/types/conversation.ts`; `Date` fields are
modelled as epoch `Nat`s. -/
structure NodeMetadata where
  processingTime : Option Nat
  createdAt : Nat
  updatedAt : Nat
deriving Repr, DecidableEq

/-- `ConversationNode` from `src/types/conversation.ts`. -/
structure ConversationNode where
  id : String
  name : String
  type : NodeType
  question : String
  answer : String
  answerSections : Option (List AnswerSection)
  parentId : Option String
  childrenIds : List String
  model : Option String
  provider : Option String
  tokens : Option Nat
  cost : Option Nat
  metadata : Option NodeMetadata
  attachments : Option (List Attachment)
  tags : Option (List String)
  imageData : Option ImageNodeData
  isCollapsed : Bool
  includeInContext : Option Bool
  isBookmarked : Option Bool
deriving Repr, DecidableEq

/-- `ConversationTree` from `src/types/conversation.ts`; the `Map` is an
insertion-ordered association list. -/
structure ConversationTree where
  nodes : List (String × ConversationNode)
  rootIds : List String
deriving Repr, DecidableEq

/-- `tree.nodes.get(id)`: association-list lookup. -/
def lookupN (nodes : List (String × ConversationNode)) (i : String) :
    Option ConversationNode :=
  (nodes.find? (fun kn => kn.1 == i)).map (·.2)

/-- `tree.nodes.has(id)`. -/
def isKey (nodes : List (String × ConversationNode)) (i : String) : Prop :=
  (lookupN nodes i).isSome

instance (nodes : List (String × ConversationNode)) (i : String) :
    Decidable (isKey nodes i) := by
  unfold isKey; infer_instance

/-- The key list of the node map. -/
def keyList (nodes : List (String × ConversationNode)) : List String :=
  nodes.map Prod.fst

/-! ### Decimal rendering

`decString` is the decimal rendering of a `Nat`, used where the source
interpolates numbers into output text and as the number part of
generated section identifiers; an injectivity proof below backs the
uniqueness of those identifiers. -/

/-- Little-endian decimal digits of a positive number; the first
argument is fuel (the value itself is always enough, proved below). -/
def decAux : Nat → Nat → List Char
  | 0, _ => []
  | f + 1, n =>
      if n = 0 then [] else Nat.digitChar (n % 10) :: decAux f (n / 10)

/-- Decimal rendering of a `Nat`. -/
def decString (n : Nat) : String :=
  if n = 0 then "0" else ⟨(decAux n n).reverse⟩

/-! ### AnswerSectionParser -/

/-- Splits a character list at blank-line boundaries (two or more
consecutive newlines), accumulating the current candidate in reverse.
Modelled from the spec: "split the text on blank-line boundaries (two
or more consecutive newlines) into candidate paragraphs"
(the parser source `src/utils/answerParser.ts` is not published; only
its unit tests are). -/
def splitBlankAux : List Char → List Char → List (List Char)
  | [], acc => [acc.reverse]
  | '\n' :: '\n' :: rest, acc => acc.reverse :: splitBlankAux rest []
  | c :: rest, acc => splitBlankAux rest (c :: acc)

/-- Candidate paragraphs of an answer text. -/
def splitBlank (l : List Char) : List (List Char) := splitBlankAux l []

/-- Does a line begin with a numbered-list marker (`\d+\.` at line
start)? -/
def isItemStart (l : List Char) : Bool :=
  !(l.takeWhile (fun c => c.isDigit)).isEmpty &&
    (l.dropWhile (fun c => c.isDigit)).head? == some '.'

/-- Splits a candidate paragraph before every line that begins a
numbered-list item.  Modelled from the spec: "each numbered-list item
(`\d+\.` at line start) is also treated as its own section boundary
even without a blank line". -/
def splitNumAux : List Char → List Char → List (List Char)
  | [], acc => [acc.reverse]
  | '\n' :: rest, acc =>
      if isItemStart rest then acc.reverse :: splitNumAux rest []
      else splitNumAux rest ('\n' :: acc)
  | c :: rest, acc => splitNumAux rest (c :: acc)

/-- All numbered-item pieces of a candidate paragraph. -/
def splitNum (l : List Char) : List (List Char) := splitNumAux l []

/-- Trims surrounding whitespace from a character list (the `.trim()`
applied to each candidate section). -/
def trimChars (l : List Char) : List Char :=
  ((l.dropWhile Char.isWhitespace).reverse.dropWhile Char.isWhitespace).reverse

/-- Assigns zero-based sequential indices and generated ids to the
surviving section texts.  Modelled from the spec: "Each surviving
section is assigned a zero-based sequential `index` and a freshly
generated unique `id`"; the fresh id is modelled as
`"section-" ++ decString index`. -/
def indexSections : Nat → List (List Char) → List AnswerSection
  | _, [] => []
  | i, t :: ts =>
      { id := "section-" ++ decString i, text := ⟨t⟩, index := i } ::
        indexSections (i + 1) ts

/-- Modelled from the spec: `parseAnswerIntoSections` of
`src/utils/answerParser.ts` (not published; only its unit tests are):
split on blank-line boundaries, split numbered-list items into their
own sections, trim each candidate, drop candidates that are empty
after trimming, then index the survivors. -/
def parseAnswerIntoSections (answer : String) : List AnswerSection :=
  indexSections 0
    ((((splitBlank answer.data).flatMap splitNum).map trimChars).filter (· ≠ []))

/-- Detects a blank-line boundary (two consecutive newlines). -/
def hasBlankB : List Char → Bool
  | '\n' :: '\n' :: _ => true
  | _ :: rest => hasBlankB rest
  | [] => false

/-- Detects an interior numbered-list boundary (a newline followed by a
numbered-list marker). -/
def hasItemBreakB : List Char → Bool
  | '\n' :: rest => isItemStart rest || hasItemBreakB rest
  | _ :: rest => hasItemBreakB rest
  | [] => false

/-- A single-paragraph answer: nonblank, without a blank-line boundary,
and without an interior numbered-list boundary (a numbered-list item
after the first line would start its own section by the parser's
policy, so such an input is a list, not a single paragraph). -/
def IsSingleParagraph (s : String) : Prop :=
  trimChars s.data ≠ [] ∧ hasBlankB s.data = false ∧ hasItemBreakB s.data = false

/-! ### ContextBuilder -/

/-- Is a node included in context?  Modelled from the spec: "skip it
entirely if `includeInContext === false` (default is true, i.e.,
absence of the flag means include)". -/
def includedInContext (n : ConversationNode) : Bool :=
  !(n.includeInContext == some false)

/-- The `AnswerSection` with a given `index` field, if any. -/
def sectionWithIndex (secs : List AnswerSection) (i : Nat) :
    Option AnswerSection :=
  secs.find? (fun s => s.index == i)

/-- The full `Q:`/`A:` block for one chain node. -/
def fullBlock (n : ConversationNode) : String :=
  "Q: " ++ n.question ++ "\nA: " ++ n.answer

/-- Renders one chain node.  Modelled from the spec: a node renders its
full question/answer pair, except that when `selectedSectionIndex` is
supplied and the node is the chain's target, the selected section's
text replaces the full answer under the label `A (selected section):`
(the substitution "applies only at the terminal node of the chain
being built"). -/
def renderNodeBlock (target : Option ConversationNode) (sel : Option Nat)
    (n : ConversationNode) : String :=
  match sel, target with
  | some i, some t =>
      if n.id = t.id then
        match n.answerSections with
        | some secs =>
            match sectionWithIndex secs i with
            | some sec =>
                "Q: " ++ n.question ++ "\nA (selected section): " ++ sec.text
            | none => fullBlock n
        | none => fullBlock n
      else fullBlock n
  | _, _ => fullBlock n

/-- The rendered blocks of a chain, in order, skipping excluded nodes.
Modelled from the spec: "For each node in `chain`, in order, skip it
entirely if `includeInContext === false`". -/
def contextBlocks (target : Option ConversationNode) (sel : Option Nat) :
    List ConversationNode → List String
  | [] => []
  | n :: rest =>
      if includedInContext n then
        renderNodeBlock target sel n :: contextBlocks target sel rest
      else contextBlocks target sel rest

/-- `Array.join(sep)`. -/
def joinSep (sep : String) : List String → String
  | [] => ""
  | [b] => b
  | b :: rest => b ++ sep ++ joinSep sep rest

/-- Modelled from the spec: `buildContext` of
`src/utils/contextBuilder.ts` (not published; only its unit tests
are): concatenate the rendered blocks with blank-line separation. -/
def buildContext (target : Option ConversationNode)
    (chain : List ConversationNode) (sel : Option Nat) : String :=
  joinSep "\n\n" (contextBlocks target sel chain)

/-- The node of the repository's selected-section unit test: a full
answer split into two cached sections. -/
def sampleSectionNode : ConversationNode :=
  { id := "node-1", name := "Test Node", type := NodeType.answer,
    question := "Test question", answer := "Full answer",
    answerSections := some
      [{ id := "1", text := "Section 1", index := 0 },
       { id := "2", text := "Section 2", index := 1 }],
    parentId := none, childrenIds := [], model := none, provider := none,
    tokens := none, cost := none, metadata := none, attachments := none,
    tags := none, imageData := none, isCollapsed := false,
    includeInContext := none, isBookmarked := none }

/-- Modelled from the spec: `buildPrompt` of
`src/utils/contextBuilder.ts`: the question verbatim when the context
is empty, otherwise two labeled sections. -/
def buildPrompt (question context : String) : String :=
  if context = "" then question
  else
    "Context from previous conversation:\n" ++ context ++
      "\n\nCurrent question:\n" ++ question

/-! ### HTML escaping (from `src/utils/exportUtils.ts`, `escapeHtml`) -/

/-- One global single-character replacement pass (the source's
`text.replace(/c/g, r)` for a one-character pattern). -/
def replaceChar (c : Char) (r : List Char) (l : List Char) : List Char :=
  l.flatMap (fun x => if x = c then r else [x])

/-- `escapeHtml` from `src/utils/exportUtils.ts`: six sequential global
replacement passes, in source order (`&`, `<`, `>`, `"`, `'`, newline). -/
def escapeChars (l : List Char) : List Char :=
  replaceChar '\n' "<br>".data
    (replaceChar '\'' "&#039;".data
      (replaceChar '"' "&quot;".data
        (replaceChar '>' "&gt;".data
          (replaceChar '<' "&lt;".data
            (replaceChar '&' "&amp;".data l)))))

/-- `escapeHtml` on strings. -/
def escapeHtml (s : String) : String := ⟨escapeChars s.data⟩

/-- The single-pass entity of one character: what `escapeHtml` is proved
to map each input character to. -/
def entity (c : Char) : List Char :=
  if c = '&' then "&amp;".data
  else if c = '<' then "&lt;".data
  else if c = '>' then "&gt;".data
  else if c = '"' then "&quot;".data
  else if c = '\'' then "&#039;".data
  else if c = '\n' then "<br>".data
  else [c]

/-- Does a character list begin with the tail of one of the five
emitted HTML entities? -/
def entHead (l : List Char) : Bool :=
  "amp;".data.isPrefixOf l || "lt;".data.isPrefixOf l ||
    "gt;".data.isPrefixOf l || "quot;".data.isPrefixOf l ||
      "#039;".data.isPrefixOf l

/-- Every ampersand in the list starts one of the five emitted HTML
entities. -/
def ampOkB : List Char → Bool
  | [] => true
  | c :: rest => (if c = '&' then entHead rest else true) && ampOkB rest

/-! ### TreeStore

The store itself (`src/store/conversationStore.ts`) is not published;
only its call sites and the data types are.  The operations below are
modelled from the spec, section 4.1. -/

/-- The error taxonomy of the spec, section 7. -/
inductive StoreError where
  | validationError
  | notFoundError
deriving Repr, DecidableEq

/-- Rewrites the entry at one key of the node map, leaving the key in
place; a no-op when the key is absent. -/
def patchAt (nodes : List (String × ConversationNode)) (i : String)
    (f : ConversationNode → ConversationNode) :
    List (String × ConversationNode) :=
  nodes.map (fun kn => if kn.1 = i then (kn.1, f kn.2) else kn)

/-- Appends a child id to a node's `childrenIds`. -/
def appendChild (n : ConversationNode) (c : String) : ConversationNode :=
  { n with childrenIds := n.childrenIds ++ [c] }

/-- Removes a child id from a node's `childrenIds`. -/
def removeChildId (n : ConversationNode) (c : String) : ConversationNode :=
  { n with childrenIds := n.childrenIds.filter (fun x => x != c) }

/-- Modelled from the spec: `addNode(node)` "inserts into `nodes`; if
`parentId` is null, appends `id` to `rootIds`; otherwise appends `id`
to the parent's `childrenIds`.  Fails with a `ValidationError` if `id`
already exists or if `parentId` references a non-existent node." -/
def addNode (t : ConversationTree) (nd : ConversationNode) :
    Except StoreError ConversationTree :=
  if isKey t.nodes nd.id then .error .validationError
  else
    match nd.parentId with
    | none =>
        .ok { nodes := t.nodes ++ [(nd.id, nd)],
              rootIds := t.rootIds ++ [nd.id] }
    | some p =>
        if isKey t.nodes p then
          .ok { nodes :=
                  patchAt t.nodes p (fun pn => appendChild pn nd.id) ++
                    [(nd.id, nd)],
                rootIds := t.rootIds }
        else .error .validationError

/-- The updatable (non-structural) node fields of `updateNode`; the
spec forbids changing `id` or `parentId` (and hence `childrenIds`)
through this path. -/
structure NodeUpdate where
  name : Option String
  question : Option String
  answer : Option String
  answerSections : Option (List AnswerSection)
  model : Option String
  provider : Option String
  tokens : Option Nat
  cost : Option Nat
  tags : Option (List String)
  includeInContext : Option Bool
  isBookmarked : Option Bool
  isCollapsed : Option Bool
deriving Repr, DecidableEq

/-- The shallow merge of an update into a stored node. -/
def applyUpdate (n : ConversationNode) (u : NodeUpdate) : ConversationNode :=
  { n with
    name := u.name.getD n.name
    question := u.question.getD n.question
    answer := u.answer.getD n.answer
    answerSections :=
      match u.answerSections with
      | some s => some s
      | none => n.answerSections
    model := match u.model with | some s => some s | none => n.model
    provider := match u.provider with | some s => some s | none => n.provider
    tokens := match u.tokens with | some s => some s | none => n.tokens
    cost := match u.cost with | some s => some s | none => n.cost
    tags := match u.tags with | some s => some s | none => n.tags
    includeInContext :=
      match u.includeInContext with
      | some b => some b
      | none => n.includeInContext
    isBookmarked :=
      match u.isBookmarked with
      | some b => some b
      | none => n.isBookmarked
    isCollapsed := u.isCollapsed.getD n.isCollapsed }

/-- Modelled from the spec: `updateNode(id, partial)` "shallow-merges
`partial` into the stored node; no-ops ... if `id` is absent". -/
def updateNode (t : ConversationTree) (i : String) (u : NodeUpdate) :
    ConversationTree :=
  { t with nodes := patchAt t.nodes i (fun n => applyUpdate n u) }

/-- Modelled from the spec: `toggleCollapse(id)` "flips `isCollapsed`". -/
def toggleCollapse (t : ConversationTree) (i : String) : ConversationTree :=
  { t with nodes := patchAt t.nodes i (fun n => { n with isCollapsed := !n.isCollapsed }) }

/-- Modelled from the spec: `clearAll()` "empties `nodes` and
`rootIds`". -/
def clearAll : ConversationTree := { nodes := [], rootIds := [] }

/-- The key set of the node map. -/
def keysF (nodes : List (String × ConversationNode)) : Finset String :=
  (keyList nodes).toFinset

/-- One expansion step of the descendant computation: adds every stored
key that is a child of a member of `s`. -/
def childStep (nodes : List (String × ConversationNode))
    (s : Finset String) : Finset String :=
  s ∪ (keysF nodes).filter (fun c => ∃ kn ∈ nodes, kn.1 ∈ s ∧ c ∈ kn.2.childrenIds)

/-- Iterated expansion. -/
def descIter (nodes : List (String × ConversationNode)) :
    Nat → Finset String → Finset String
  | 0, s => s
  | f + 1, s => descIter nodes f (childStep nodes s)

/-- The full descendant set of `i` (including `i`), computed by
saturating the child expansion; `(keysF nodes).card` iterations are
proved sufficient below.  Modelled from the spec: `deleteNode`
"computes the full descendant set via traversal from `id`". -/
def descendantSet (nodes : List (String × ConversationNode)) (i : String) :
    Finset String :=
  descIter nodes (keysF nodes).card {i}

/-- Modelled from the spec: `deleteNode(id)` "computes the full
descendant set via traversal from `id` ..., removes every id in that
set from `nodes`, and removes `id` from its parent's `childrenIds` or
from `rootIds`"; a no-op when `id` is unknown (`NotFoundError` is
reported but the engine no-ops, spec section 7). -/
def deleteNode (t : ConversationTree) (i : String) : ConversationTree :=
  match lookupN t.nodes i with
  | none => t
  | some n =>
      let d := descendantSet t.nodes i
      let remaining := t.nodes.filter (fun kn => decide (kn.1 ∉ d))
      match n.parentId with
      | none =>
          { nodes := remaining, rootIds := t.rootIds.filter (fun r => r != i) }
      | some p =>
          { nodes := patchAt remaining p (fun m => removeChildId m i),
            rootIds := t.rootIds }

/-- Downward reachability along `childrenIds`, between stored keys. -/
inductive ReachD (nodes : List (String × ConversationNode)) :
    String → String → Prop where
  | refl (x : String) (h : isKey nodes x) : ReachD nodes x x
  | snoc (x y z : String) (n : ConversationNode) (hr : ReachD nodes x y)
      (hl : lookupN nodes y = some n) (hc : z ∈ n.childrenIds)
      (hk : isKey nodes z) : ReachD nodes x z

/-- The structural invariants of the conversation tree (spec,
section 3): well-keyed duplicate-free map, duplicate-free roots,
root/parent biconditional, no dangling root or child ids, parent and
child links mutually consistent. -/
structure Inv (t : ConversationTree) : Prop where
  wellKeyed : ∀ kn ∈ t.nodes, (kn : String × ConversationNode).2.id = kn.1
  nodupKeys : (keyList t.nodes).Nodup
  nodupRoots : t.rootIds.Nodup
  rootMem : ∀ kn ∈ t.nodes,
    ((kn : String × ConversationNode).2.parentId = none ↔ kn.1 ∈ t.rootIds)
  rootKey : ∀ r ∈ t.rootIds, isKey t.nodes r
  parentLink : ∀ kn ∈ t.nodes, ∀ p,
    (kn : String × ConversationNode).2.parentId = some p →
      ∃ pn, lookupN t.nodes p = some pn ∧ kn.1 ∈ pn.childrenIds
  childParent : ∀ kn ∈ t.nodes, ∀ mn ∈ t.nodes,
    (kn : String × ConversationNode).1 ∈
        (mn : String × ConversationNode).2.childrenIds →
      kn.2.parentId = some mn.1
  childKey : ∀ kn ∈ t.nodes, ∀ c ∈ (kn : String × ConversationNode).2.childrenIds,
    isKey t.nodes c

/-- The referential-integrity property claimed for every store
operation: each stored node is a root exactly when it has no parent,
sits in its parent's `childrenIds` exactly when the parent is present,
and appears in `rootIds` or in some node's `childrenIds` — never in
both, never in neither. -/
def TreeConsistent (t : ConversationTree) : Prop :=
  ∀ kn ∈ t.nodes,
    ((kn : String × ConversationNode).1 ∈ t.rootIds ↔ kn.2.parentId = none) ∧
    (∀ p, kn.2.parentId = some p →
      ((∃ pn, lookupN t.nodes p = some pn ∧ kn.1 ∈ pn.childrenIds) ↔
        isKey t.nodes p)) ∧
    ¬(kn.1 ∈ t.rootIds ∧ ∃ mn ∈ t.nodes,
        kn.1 ∈ (mn : String × ConversationNode).2.childrenIds) ∧
    (kn.1 ∈ t.rootIds ∨ ∃ mn ∈ t.nodes,
        kn.1 ∈ (mn : String × ConversationNode).2.childrenIds)

/-! ### Node chains -/

/-- The upward walk of `getNodeChain`, with the spec's visited-set
guard against corrupted cyclic chains.  Modelled from the spec:
`getNodeChain(id)` "walks `parentId` upward from `id` to a root,
accumulating nodes ... Must guard against a corrupted cyclic chain
with a visited-set and stop rather than loop forever." -/
def chainUp (nodes : List (String × ConversationNode)) :
    Nat → List String → String → List ConversationNode
  | 0, _, _ => []
  | f + 1, visited, x =>
      if x ∈ visited then []
      else
        match lookupN nodes x with
        | none => []
        | some n =>
            n ::
              (match n.parentId with
               | none => []
               | some p => chainUp nodes f (x :: visited) p)

/-- Modelled from the spec: `getNodeChain(id)` returns the accumulated
upward walk "in root-first order (ancestors before `id` itself, `id`
last)". -/
def getNodeChain (t : ConversationTree) (i : String) :
    List ConversationNode :=
  (chainUp t.nodes (t.nodes.length + 1) [] i).reverse

/-- The id path of the upward parent walk from `x` to the first root,
or `none` if the walk leaves the map or exceeds the fuel. -/
def upPath (nodes : List (String × ConversationNode)) :
    Nat → String → Option (List String)
  | 0, _ => none
  | f + 1, x =>
      match lookupN nodes x with
      | none => none
      | some n =>
          match n.parentId with
          | none => some [x]
          | some p => (upPath nodes f p).map (fun l => x :: l)

/-- Every stored node's upward parent walk reaches a root (the spec's
forest/acyclicity invariant, in decidable bounded form: a walk that
reaches a root does so within `|nodes|` steps). -/
def UpTerm (nodes : List (String × ConversationNode)) : Prop :=
  ∀ k ∈ keyList nodes, (upPath nodes (nodes.length + 1) k).isSome

/-! ### SessionCodec -/

/-- JavaScript string truthiness choice `o || d`. -/
def strOr (o : Option String) (d : String) : String :=
  match o with
  | some s => if s = "" then d else s
  | none => d

/-- Truthiness of an optional string (`""` is falsy). -/
def truthyS : Option String → Bool
  | none => false
  | some s => !(s == "")

/-- Truthiness of an optional number (`0` is falsy). -/
def truthyN : Option Nat → Bool
  | none => false
  | some n => !(n == 0)

/-- The versioned envelope emitted by `exportToJSON` (spec, section 6);
`JSON.stringify` of this structure is not modelled. -/
structure SessionDoc where
  version : String
  exportedAt : String
  sessionId : String
  sessionName : String
  treeNodes : List ConversationNode
  treeRootIds : List String
  statsTotalNodes : Nat
  statsTotalRoots : Nat
  statsTotalCost : Nat
  statsTotalTokens : Nat
deriving Repr, DecidableEq

/-- `exportToJSON` from `src/utils/exportUtils.ts`: the node map as an
array (map insertion order), the stored `rootIds`, session identity and
aggregate stats, under version tag `"2.0"`.  The ambient clock
(`new Date()`, `Date.now()`) is the `now` parameter; the injective
`Date` ⇄ ISO-string re-encoding of `metadata` timestamps is the
identity in this model (timestamps are already `Nat`s). -/
def exportToJSON (tree : ConversationTree)
    (sessionName sessionId : Option String) (now : String) : SessionDoc :=
  { version := "2.0"
    exportedAt := now
    sessionId := strOr sessionId ("export-" ++ now)
    sessionName := strOr sessionName "Exported Conversation"
    treeNodes := tree.nodes.map Prod.snd
    treeRootIds := tree.rootIds
    statsTotalNodes := tree.nodes.length
    statsTotalRoots := tree.rootIds.length
    statsTotalCost := ((tree.nodes.map (fun kn => kn.2.cost.getD 0)).sum)
    statsTotalTokens := ((tree.nodes.map (fun kn => kn.2.tokens.getD 0)).sum) }

/-- `SchemaError` of the spec's error taxonomy. -/
inductive CodecError where
  | schemaError
deriving Repr, DecidableEq

/-- Modelled from the spec: `deserialize(document)` of the session
codec (not published) "validates the envelope's version tag (fails
with `SchemaError` on mismatch ...), rebuilds the node map keyed by
each node's `id`, ... and recomputes `rootIds` by filtering nodes with
`parentId == null` rather than trusting a possibly stale stored
`rootIds` field". -/
def deserialize (doc : SessionDoc) : Except CodecError ConversationTree :=
  if doc.version = "2.0" then
    .ok { nodes := doc.treeNodes.map (fun n => (n.id, n))
          rootIds := (doc.treeNodes.filter (fun n => n.parentId == none)).map (·.id) }
  else .error .schemaError

/-! ### Markdown export (from `src/utils/exportUtils.ts`, `exportToMarkdown`)

Locale- and precision-dependent numeric formatting
(`toLocaleString`, `toFixed`, `Date.toLocaleString`) is abstracted as
`decString` throughout. -/

/-- The heading text of one markdown node block:
`node.name || "Node " + nodeId.slice(0, 8)` under
`prefix + '#'.repeat(depth + 1)`. -/
def mdHeaderLine (n : ConversationNode) (nodeId : String) (depth : Nat) :
    String :=
  (if depth = 0 then "#" else "##") ++ ⟨List.replicate (depth + 1) '#'⟩ ++
    " " ++ (if n.name = "" then "Node " ++ ⟨nodeId.data.take 8⟩ else n.name)

/-- The metadata block of one markdown node block. -/
def mdMetaLines (n : ConversationNode) : List String :=
  if truthyS n.model || n.cost.isSome || truthyN n.tokens then
    ["**Metadata:**"] ++
      (if truthyS n.model then ["- Model: " ++ n.model.getD ""] else []) ++
      (if truthyS n.provider then ["- Provider: " ++ n.provider.getD ""] else []) ++
      (if truthyN n.tokens then ["- Tokens: " ++ decString (n.tokens.getD 0)] else []) ++
      (match n.cost with
       | some c => if 0 < c then ["- Cost: $" ++ decString c] else []
       | none => []) ++
      (match n.metadata with
       | some m =>
           (match m.processingTime with
            | some p => if p ≠ 0 then ["- Processing Time: " ++ decString p] else []
            | none => [])
       | none => []) ++
      (match n.metadata with
       | some m => ["- Created: " ++ decString m.createdAt]
       | none => []) ++
      [""]
  else []

/-- The generated-images block of one markdown node block (image nodes
only). -/
def mdImageLines (n : ConversationNode) : List String :=
  match n.type, n.imageData with
  | NodeType.image, some d =>
      ["**Generated Images:**", ""] ++
        d.generatedImages.enum.flatMap
          (fun p =>
            ["![Generated Image " ++ decString (p.1 + 1) ++ "](" ++ p.2 ++ ")", ""]) ++
        ["**Image Generation Settings:**",
         "- Model: " ++ d.generationConfig.model,
         "- Aspect Ratio: " ++ d.generationConfig.aspectRatio] ++
        (match d.generationConfig.numberOfImages with
         | some k => if k ≠ 0 then ["- Number of Images: " ++ decString k] else []
         | none => []) ++
        (match d.generationConfig.compositionMode with
         | some m =>
             if m ≠ "" then
               ["- Composition Mode: " ++ m,
                "- Composition Sources: " ++
                  decString d.generationConfig.compositionSourceCount ++ " images"]
             else []
         | none => []) ++
        [""]
  | _, _ => []

/-- The tags block of one markdown node block. -/
def mdTagLines (n : ConversationNode) : List String :=
  match n.tags with
  | some ts =>
      if ts.isEmpty then [] else ["**Tags:** " ++ String.intercalate ", " ts, ""]
  | none => []

/-- One markdown attachment entry. -/
def mdAttLine (i : Nat) (att : Attachment) : List String :=
  if att.type == "image" && truthyS att.url then
    ["![" ++ strOr att.filename ("Image " ++ decString (i + 1)) ++ "](" ++
       att.url.getD "" ++ ")", ""]
  else if att.type == "link" && truthyS att.url then
    ["- [" ++ strOr att.filename "Link" ++ "](" ++ att.url.getD "" ++ ")"]
  else ["- " ++ strOr att.filename att.type]

/-- The attachments block of one markdown node block. -/
def mdAttachmentLines (n : ConversationNode) : List String :=
  match n.attachments with
  | some atts =>
      if atts.isEmpty then []
      else
        ["**Attachments:**"] ++ atts.enum.flatMap (fun p => mdAttLine p.1 p.2) ++ [""]
  | none => []

/-- The full markdown block of one visited node. -/
def mdNodeLines (n : ConversationNode) (nodeId : String) (depth : Nat) :
    List String :=
  [mdHeaderLine n nodeId depth, ""] ++ mdMetaLines n ++
    ["**Question:**", "", n.question, "", "**Answer:**", "", n.answer, ""] ++
    mdImageLines n ++ mdTagLines n ++ mdAttachmentLines n ++ ["---", ""]

/-- `traverseNode` of `exportToMarkdown`: look the id up (returning
silently when absent), emit the node's block, then recurse into
`childrenIds` in stored order.  The fuel parameter stands for the
source's unbounded recursion; `|nodes| + 1` is proved sufficient for
terminating trees. -/
def mdTraverse (nodes : List (String × ConversationNode)) :
    Nat → String → Nat → List String
  | 0, _, _ => []
  | f + 1, nodeId, depth =>
      match lookupN nodes nodeId with
      | none => []
      | some n =>
          mdNodeLines n nodeId depth ++
            n.childrenIds.flatMap (fun c => mdTraverse nodes f c (depth + 1))

/-- The lines of `exportToMarkdown` (the final source joins them with
newlines). -/
def exportToMarkdownLines (tree : ConversationTree)
    (sessionName : Option String) (now : String) : List String :=
  ["# " ++ strOr sessionName "InferFlow Conversation Export", "",
   "**Exported:** " ++ now,
   "**Total Nodes:** " ++ decString tree.nodes.length, "", "---", ""] ++
    tree.rootIds.flatMap
      (fun r => mdTraverse tree.nodes (tree.nodes.length + 1) r 0)

/-- `exportToMarkdown` from `src/utils/exportUtils.ts`. -/
def exportToMarkdown (tree : ConversationTree)
    (sessionName : Option String) (now : String) : String :=
  String.intercalate "\n" (exportToMarkdownLines tree sessionName now)

/-! ### HTML export (from `src/utils/exportUtils.ts`, `exportToHTML`) -/

/-- `Math.min(depth + 2, 6)`. -/
def hLevel (depth : Nat) : Nat := min (depth + 2) 6

/-- `node.name || "Node " + nodeId.slice(0, 8)`. -/
def displayNameOf (n : ConversationNode) (nodeId : String) : String :=
  if n.name = "" then "Node " ++ ⟨nodeId.data.take 8⟩ else n.name

/-- The metadata block of one HTML node block. -/
def htmlMetaLines (n : ConversationNode) : List String :=
  if truthyS n.model || n.cost.isSome || truthyN n.tokens then
    ["<div class=\"metadata\">"] ++
      (if truthyS n.model then
        ["<p><strong>Model:</strong> " ++ escapeHtml (n.model.getD "") ++ "</p>"]
       else []) ++
      (if truthyS n.provider then
        ["<p><strong>Provider:</strong> " ++ escapeHtml (n.provider.getD "") ++ "</p>"]
       else []) ++
      (if truthyN n.tokens then
        ["<p><strong>Tokens:</strong> " ++ decString (n.tokens.getD 0) ++ "</p>"]
       else []) ++
      (match n.cost with
       | some c =>
           if 0 < c then ["<p><strong>Cost:</strong> $" ++ decString c ++ "</p>"]
           else []
       | none => []) ++
      (match n.metadata with
       | some m =>
           (match m.processingTime with
            | some p =>
                if p ≠ 0 then
                  ["<p><strong>Processing Time:</strong> " ++ decString p ++ "s</p>"]
                else []
            | none => [])
       | none => []) ++
      ["</div>"]
  else []

/-- The generated-images block of one HTML node block. -/
def htmlImageLines (n : ConversationNode) : List String :=
  match n.type, n.imageData with
  | NodeType.image, some d =>
      ["<div class=\"image-container\">",
       "<p><strong>Generated Images:</strong></p>"] ++
        d.generatedImages.enum.map
          (fun p =>
            "<img src=\"" ++ p.2 ++ "\" alt=\"Generated Image " ++
              decString (p.1 + 1) ++ "\" />") ++
        ["</div>", "<div class=\"image-settings\">",
         "<p><strong>Image Generation Settings:</strong></p>",
         "<p>Model: " ++ escapeHtml d.generationConfig.model ++ "</p>",
         "<p>Aspect Ratio: " ++ escapeHtml d.generationConfig.aspectRatio ++ "</p>"] ++
        (match d.generationConfig.numberOfImages with
         | some k => if k ≠ 0 then ["<p>Number of Images: " ++ decString k ++ "</p>"] else []
         | none => []) ++
        (match d.generationConfig.compositionMode with
         | some m =>
             if m ≠ "" then
               ["<p>Composition Mode: " ++ escapeHtml m ++ "</p>",
                "<p>Composition Sources: " ++
                  decString d.generationConfig.compositionSourceCount ++ " images</p>"]
             else []
         | none => []) ++
        ["</div>"]
  | _, _ => []

/-- One HTML attachment entry. -/
def htmlAttLines (i : Nat) (att : Attachment) : List String :=
  if att.type == "image" && truthyS att.url then
    ["<div class=\"image-container\">",
     "<img src=\"" ++ att.url.getD "" ++ "\" alt=\"" ++
       escapeHtml (strOr att.filename ("Image " ++ decString (i + 1))) ++ "\" />",
     "</div>"]
  else if att.type == "link" && truthyS att.url then
    ["<p><a href=\"" ++ att.url.getD "" ++ "\" target=\"_blank\">" ++
       escapeHtml (strOr att.filename "Link") ++ "</a></p>"]
  else ["<p>" ++ escapeHtml (strOr att.filename att.type) ++ "</p>"]

/-- The attachments block of one HTML node block. -/
def htmlAttachmentLines (n : ConversationNode) : List String :=
  match n.attachments with
  | some atts =>
      if atts.isEmpty then []
      else
        ["<div class=\"attachments\">", "<p><strong>Attachments:</strong></p>"] ++
          atts.enum.flatMap (fun p => htmlAttLines p.1 p.2) ++ ["</div>"]
  | none => []

/-- The tags block of one HTML node block. -/
def htmlTagLines (n : ConversationNode) : List String :=
  match n.tags with
  | some ts =>
      if ts.isEmpty then []
      else
        ["<div class=\"tags\">", "<p><strong>Tags:</strong></p>"] ++
          ts.map (fun tg => "<span class=\"tag\">" ++ escapeHtml tg ++ "</span>") ++
          ["</div>"]
  | none => []

/-- The full HTML block of one visited node. -/
def htmlNodeLines (n : ConversationNode) (nodeId : String) (depth : Nat) :
    List String :=
  ["<h" ++ decString (hLevel depth) ++ ">" ++
     escapeHtml (displayNameOf n nodeId) ++ "</h" ++ decString (hLevel depth) ++ ">"] ++
    htmlMetaLines n ++
    ["<div class=\"question\">", "<p><strong>Question:</strong></p>",
     "<p>" ++ escapeHtml n.question ++ "</p>", "</div>",
     "<div class=\"answer\">", "<p><strong>Answer:</strong></p>",
     "<p>" ++ escapeHtml n.answer ++ "</p>", "</div>"] ++
    htmlImageLines n ++ htmlAttachmentLines n ++ htmlTagLines n ++
    ["<div class=\"node-separator\"></div>"]

/-- `traverseNode` of `exportToHTML`: same traversal skeleton as the
markdown exporter. -/
def htmlTraverse (nodes : List (String × ConversationNode)) :
    Nat → String → Nat → List String
  | 0, _, _ => []
  | f + 1, nodeId, depth =>
      match lookupN nodes nodeId with
      | none => []
      | some n =>
          htmlNodeLines n nodeId depth ++
            n.childrenIds.flatMap (fun c => htmlTraverse nodes f c (depth + 1))

/-- The static stylesheet text of `exportToHTML` (content elided: it is
a fixed string the claims do not touch). -/
def cssText : String := "  body ... (static stylesheet elided) ..."

/-- The lines of `exportToHTML`. -/
def exportToHTMLLines (tree : ConversationTree)
    (sessionName : Option String) (now : String) : List String :=
  ["<!DOCTYPE html>", "<html lang=\"en\">", "<head>",
   "<meta charset=\"UTF-8\">",
   "<meta name=\"viewport\" content=\"width=device-width, initial-scale=1.0\">",
   "<title>" ++ strOr sessionName "InferFlow Conversation Export" ++ "</title>",
   "<style>", cssText, "</style>", "</head>", "<body>",
   "<div class=\"container\">",
   "<h1>" ++ strOr sessionName "InferFlow Conversation Export" ++ "</h1>",
   "<div class=\"metadata\">",
   "<p><strong>Exported:</strong> " ++ now ++ "</p>",
   "<p><strong>Total Nodes:</strong> " ++ decString tree.nodes.length ++ "</p>",
   "</div>"] ++
    tree.rootIds.flatMap
      (fun r => htmlTraverse tree.nodes (tree.nodes.length + 1) r 0) ++
    ["</div>", "</body>", "</html>"]

/-- `exportToHTML` from `src/utils/exportUtils.ts`. -/
def exportToHTML (tree : ConversationTree) (sessionName : Option String)
    (now : String) : String :=
  String.intercalate "\n" (exportToHTMLLines tree sessionName now)

/-- The id/depth visit list shared by both exporters' traversals. -/
def dfsAug (nodes : List (String × ConversationNode)) :
    Nat → String → Nat → List (String × Nat)
  | 0, _, _ => []
  | f + 1, nodeId, depth =>
      match lookupN nodes nodeId with
      | none => []
      | some n =>
          (nodeId, depth) ::
            n.childrenIds.flatMap (fun c => dfsAug nodes f c (depth + 1))

/-- The markdown block of one visit-list entry. -/
def mdBlockAt (nodes : List (String × ConversationNode)) (p : String × Nat) :
    List String :=
  match lookupN nodes p.1 with
  | none => []
  | some n => mdNodeLines n p.1 p.2

/-- The HTML block of one visit-list entry. -/
def htmlBlockAt (nodes : List (String × ConversationNode)) (p : String × Nat) :
    List String :=
  match lookupN nodes p.1 with
  | none => []
  | some n => htmlNodeLines n p.1 p.2

/-- The ids both exporters visit, in visit order. -/
def exportVisited (tree : ConversationTree) : List String :=
  (tree.rootIds.flatMap
      (fun r => dfsAug tree.nodes (tree.nodes.length + 1) r 0)).map Prod.fst

/-- Bounded downward termination: every downward `childrenIds` walk
from a stored key leaves the map or ends within the fuel. -/
def downB (nodes : List (String × ConversationNode)) : Nat → String → Bool
  | 0, _ => false
  | f + 1, x =>
      match lookupN nodes x with
      | none => true
      | some n => n.childrenIds.all (downB nodes f)

/-- Downward acyclicity of the stored children graph, in decidable
bounded form (an acyclic downward walk through distinct keys ends
within `|nodes|` steps). -/
def DownTerm (nodes : List (String × ConversationNode)) : Prop :=
  ∀ k ∈ keyList nodes, downB nodes (nodes.length + 1) k = true

instance (nodes : List (String × ConversationNode)) :
    Decidable (DownTerm nodes) := by
  unfold DownTerm; infer_instance

instance (nodes : List (String × ConversationNode)) :
    Decidable (UpTerm nodes) := by
  unfold UpTerm; infer_instance

instance (s : String) : Decidable (IsSingleParagraph s) := by
  unfold IsSingleParagraph; infer_instance

/-! ### Concrete evaluation data

A decidable conjunction of the structural-invariant checks, and some
concrete trees, used to evaluate the theorems below on closed inputs. -/

/-- Decidable check of the structural invariants on a concrete tree. -/
def invB (t : ConversationTree) : Bool :=
  t.nodes.all (fun kn => kn.2.id == kn.1) &&
  decide ((keyList t.nodes).Nodup) &&
  decide (t.rootIds.Nodup) &&
  t.nodes.all (fun kn =>
    decide (kn.2.parentId = none) == decide (kn.1 ∈ t.rootIds)) &&
  t.rootIds.all (fun r => decide (isKey t.nodes r)) &&
  t.nodes.all (fun kn =>
    match kn.2.parentId with
    | none => true
    | some p =>
        match lookupN t.nodes p with
        | none => false
        | some pn => decide (kn.1 ∈ pn.childrenIds)) &&
  t.nodes.all (fun kn => t.nodes.all (fun mn =>
    !(decide (kn.1 ∈ mn.2.childrenIds)) || decide (kn.2.parentId = some mn.1))) &&
  t.nodes.all (fun kn => kn.2.childrenIds.all (fun c => decide (isKey t.nodes c)))

/-- A fresh default node with the given identity and links. -/
def mkNode (i : String) (p : Option String) (cs : List String) :
    ConversationNode :=
  { id := i, name := "node " ++ i, type := NodeType.question,
    question := "Q" ++ i, answer := "A" ++ i, answerSections := none,
    parentId := p, childrenIds := cs, model := none, provider := none,
    tokens := none, cost := none, metadata := none, attachments := none,
    tags := none, imageData := none, isCollapsed := false,
    includeInContext := none, isBookmarked := none }

/-- A concrete four-node tree: one root with two children, one grandchild. -/
def sampleTree : ConversationTree :=
  { nodes := [("r", mkNode "r" none ["a", "b"]),
              ("a", mkNode "a" (some "r") ["c"]),
              ("b", mkNode "b" (some "r") []),
              ("c", mkNode "c" (some "a") [])],
    rootIds := ["r"] }

/-- A concrete update touching only content fields. -/
def sampleUpdate : NodeUpdate :=
  { name := some "renamed", question := none, answer := none,
    answerSections := none, model := none, provider := none,
    tokens := none, cost := none, tags := none, includeInContext := none,
    isBookmarked := none, isCollapsed := none }

/-- A tree whose root lists a dangling child id and whose map stores a
node unreachable from the roots. -/
def danglingTree : ConversationTree :=
  { nodes := [("r", mkNode "r" none ["a", "ghost"]),
              ("a", mkNode "a" (some "r") []),
              ("orphan", mkNode "orphan" (some "zzz") [])],
    rootIds := ["r"] }

theorem lookupN_eq_some_iff (nodes : List (String × ConversationNode))
    (i : String) (n : ConversationNode) :
    lookupN nodes i = some n ↔
      ∃ kn ∈ nodes, kn.1 = i ∧ kn.2 = n ∧
        nodes.find? (fun kn => kn.1 == i) = some kn := by
  unfold lookupN
  constructor
  · intro h
    rcases Option.map_eq_some'.mp h with ⟨kn, hfind, hsnd⟩
    exact ⟨kn, List.mem_of_find?_eq_some hfind,
      by simpa using List.find?_some hfind, hsnd, hfind⟩
  · rintro ⟨kn, _, _, hn, hfind⟩
    rw [hfind]; simpa using hn

theorem lookupN_isSome_iff (nodes : List (String × ConversationNode))
    (i : String) :
    (lookupN nodes i).isSome ↔ i ∈ keyList nodes := by
  unfold lookupN keyList
  rw [Option.isSome_map']
  rw [List.find?_isSome]
  constructor
  · rintro ⟨kn, hmem, hkey⟩
    exact List.mem_map.mpr ⟨kn, hmem, by simpa using hkey⟩
  · intro h
    rcases List.mem_map.mp h with ⟨kn, hmem, hkey⟩
    exact ⟨kn, hmem, by simpa using hkey⟩

theorem isKey_iff_mem_keyList (nodes : List (String × ConversationNode))
    (i : String) : isKey nodes i ↔ i ∈ keyList nodes :=
  lookupN_isSome_iff nodes i

theorem lookupN_eq_none_iff (nodes : List (String × ConversationNode))
    (i : String) : lookupN nodes i = none ↔ ¬ isKey nodes i := by
  unfold isKey
  cases h : lookupN nodes i <;> simp [h]

/-- For a map with duplicate-free keys, each stored pair is recovered by
lookup at its own key. -/
theorem lookupN_of_mem (nodes : List (String × ConversationNode))
    (hnd : (keyList nodes).Nodup) (kn : String × ConversationNode)
    (hmem : kn ∈ nodes) : lookupN nodes kn.1 = some kn.2 := by
  induction nodes with
  | nil => cases hmem
  | cons hd tl ih =>
      rcases List.mem_cons.mp hmem with h | h
      · subst h
        unfold lookupN
        simp [List.find?_cons_of_pos]
      · have hnd' : (keyList tl).Nodup := (List.nodup_cons.mp hnd).2
        have hne : hd.1 ≠ kn.1 := by
          intro he
          exact (List.nodup_cons.mp hnd).1
            (he ▸ List.mem_map.mpr ⟨kn, h, rfl⟩)
        unfold lookupN
        rw [List.find?_cons_of_neg _ (by simpa using hne)]
        exact ih hnd' h

theorem mem_of_lookupN_eq_some (nodes : List (String × ConversationNode))
    (i : String) (n : ConversationNode) (h : lookupN nodes i = some n) :
    (i, n) ∈ nodes := by
  rcases (lookupN_eq_some_iff nodes i n).mp h with ⟨kn, hmem, h1, h2, _⟩
  have : kn = (i, n) := by
    cases kn; simp_all
  exact this ▸ hmem

/-! ### Decimal rendering lemmas -/

theorem digitChar_inj_lt (a b : Nat) (ha : a < 10) (hb : b < 10)
    (h : Nat.digitChar a = Nat.digitChar b) : a = b := by
  have key : ∀ x : Fin 10, ∀ y : Fin 10,
      Nat.digitChar x.val = Nat.digitChar y.val → x = y := by decide
  have := key ⟨a, ha⟩ ⟨b, hb⟩ h
  simpa [Fin.ext_iff] using this

theorem decAux_fuel (n : Nat) : ∀ f g, n ≤ f → n ≤ g →
    decAux f n = decAux g n := by
  induction n using Nat.strong_induction_on with
  | _ n ih =>
      intro f g hf hg
      by_cases hn : n = 0
      · subst hn
        cases f <;> cases g <;> simp [decAux]
      · obtain ⟨f', rfl⟩ : ∃ f', f = f' + 1 :=
          ⟨f - 1, by omega⟩
        obtain ⟨g', rfl⟩ : ∃ g', g = g' + 1 :=
          ⟨g - 1, by omega⟩
        have hdiv : n / 10 < n := Nat.div_lt_self (by omega) (by omega)
        simp only [decAux, hn, if_false]
        rw [ih (n / 10) hdiv (f') (g') (by omega) (by omega)]

theorem decAux_eq_nil_iff (f n : Nat) (hf : n ≤ f) :
    decAux f n = [] ↔ n = 0 := by
  constructor
  · intro h
    by_contra hn
    obtain ⟨f', rfl⟩ : ∃ f', f = f' + 1 := ⟨f - 1, by omega⟩
    simp [decAux, hn] at h
  · intro h; subst h; cases f <;> simp [decAux]

theorem decAux_self_inj (m n : Nat) (h : decAux m m = decAux n n) : m = n := by
  induction m using Nat.strong_induction_on generalizing n with
  | _ m ih =>
      by_cases hm : m = 0
      · subst hm
        by_cases hn : n = 0
        · exact hn.symm
        · rw [show decAux 0 0 = [] from rfl] at h
          exact absurd ((decAux_eq_nil_iff n n le_rfl).mp h.symm) hn
      · by_cases hn : n = 0
        · subst hn
          rw [show decAux 0 0 = [] from rfl] at h
          exact absurd ((decAux_eq_nil_iff m m le_rfl).mp h) hm
        · obtain ⟨m', rfl⟩ : ∃ m', m = m' + 1 := ⟨m - 1, by omega⟩
          obtain ⟨n', rfl⟩ : ∃ n', n = n' + 1 := ⟨n - 1, by omega⟩
          simp only [decAux, hm, hn, if_false, List.cons.injEq] at h
          obtain ⟨hhd, htl⟩ := h
          have hmod : (m' + 1) % 10 = (n' + 1) % 10 :=
            digitChar_inj_lt _ _ (Nat.mod_lt _ (by omega))
              (Nat.mod_lt _ (by omega)) hhd
          have hmdiv : (m' + 1) / 10 < m' + 1 :=
            Nat.div_lt_self (by omega) (by omega)
          have hndiv : (n' + 1) / 10 < n' + 1 :=
            Nat.div_lt_self (by omega) (by omega)
          rw [decAux_fuel ((m' + 1) / 10) m' ((m' + 1) / 10) (by omega) le_rfl,
            decAux_fuel ((n' + 1) / 10) n' ((n' + 1) / 10) (by omega) le_rfl]
            at htl
          have hdiv : (m' + 1) / 10 = (n' + 1) / 10 := ih _ hmdiv _ htl
          omega

theorem decString_inj (m n : Nat) (h : decString m = decString n) : m = n := by
  unfold decString at h
  by_cases hm : m = 0 <;> by_cases hn : n = 0
  · omega
  · exfalso
    rw [if_pos hm, if_neg hn] at h
    have hd := congrArg String.data h
    simp only [String.data] at hd
    obtain ⟨g, rfl⟩ : ∃ g, n = g + 1 := ⟨n - 1, by omega⟩
    have : decAux (g + 1) (g + 1) = ['0'] := by
      have := congrArg List.reverse hd
      simpa using this.symm
    rw [show decAux (g + 1) (g + 1) =
        Nat.digitChar ((g + 1) % 10) :: decAux g ((g + 1) / 10) by
      simp [decAux]] at this
    obtain ⟨hhd, htl⟩ := List.cons.injEq _ _ _ _ ▸ this
    have hz : (g + 1) % 10 = 0 := by
      have : Nat.digitChar ((g + 1) % 10) = Nat.digitChar 0 := by
        simpa [Nat.digitChar] using hhd
      exact digitChar_inj_lt _ _ (Nat.mod_lt _ (by omega)) (by omega) this
    have hdiv0 : (g + 1) / 10 = 0 := by
      by_contra hne
      have hle : (g + 1) / 10 ≤ g := by
        have := Nat.div_lt_self (show 0 < g + 1 by omega) (show 1 < 10 by omega)
        omega
      exact hne ((decAux_eq_nil_iff g ((g + 1) / 10) hle).mp htl)
    omega
  · exfalso
    rw [if_neg hm, if_pos hn] at h
    have hd := congrArg String.data h
    simp only [String.data] at hd
    obtain ⟨g, rfl⟩ : ∃ g, m = g + 1 := ⟨m - 1, by omega⟩
    have : decAux (g + 1) (g + 1) = ['0'] := by
      have := congrArg List.reverse hd
      simpa using this
    rw [show decAux (g + 1) (g + 1) =
        Nat.digitChar ((g + 1) % 10) :: decAux g ((g + 1) / 10) by
      simp [decAux]] at this
    obtain ⟨hhd, htl⟩ := List.cons.injEq _ _ _ _ ▸ this
    have hz : (g + 1) % 10 = 0 := by
      have : Nat.digitChar ((g + 1) % 10) = Nat.digitChar 0 := by
        simpa [Nat.digitChar] using hhd
      exact digitChar_inj_lt _ _ (Nat.mod_lt _ (by omega)) (by omega) this
    have hdiv0 : (g + 1) / 10 = 0 := by
      by_contra hne
      have hle : (g + 1) / 10 ≤ g := by
        have := Nat.div_lt_self (show 0 < g + 1 by omega) (show 1 < 10 by omega)
        omega
      exact hne ((decAux_eq_nil_iff g ((g + 1) / 10) hle).mp htl)
    omega
  · rw [if_neg hm, if_neg hn] at h
    have hd := congrArg String.data h
    simp only [String.data] at hd
    exact decAux_self_inj m n (List.reverse_injective hd)

/-! ### AnswerSectionParser lemmas -/

theorem splitBlankAux_step (c : Char) (rest acc : List Char)
    (h : ¬(c = '\n' ∧ rest.head? = some '\n')) :
    splitBlankAux (c :: rest) acc = splitBlankAux rest (c :: acc) := by
  cases rest with
  | nil => simp [splitBlankAux]
  | cons c2 rest2 =>
      by_cases hc : c = '\n'
      · by_cases hc2 : c2 = '\n'
        · exact absurd ⟨hc, by simp [hc2]⟩ h
        · subst hc
          simp [splitBlankAux, hc2]
      · simp [splitBlankAux, hc]

theorem hasBlankB_cons_false (c : Char) (rest : List Char)
    (h : hasBlankB (c :: rest) = false) :
    ¬(c = '\n' ∧ rest.head? = some '\n') ∧ hasBlankB rest = false := by
  cases rest with
  | nil => simp [hasBlankB]
  | cons c2 rest2 =>
      by_cases hc : c = '\n'
      · by_cases hc2 : c2 = '\n'
        · subst hc; subst hc2; simp [hasBlankB] at h
        · subst hc
          refine ⟨by simp [hc2], ?_⟩
          simpa [hasBlankB, hc2] using h
      · refine ⟨by simp [hc], ?_⟩
        simpa [hasBlankB, hc] using h

theorem splitBlankAux_no_blank :
    ∀ l acc : List Char, hasBlankB l = false →
      splitBlankAux l acc = [acc.reverse ++ l] := by
  intro l
  induction l with
  | nil => intro acc _; simp [splitBlankAux]
  | cons c rest ih =>
      intro acc h
      obtain ⟨hstep, htail⟩ := hasBlankB_cons_false c rest h
      rw [splitBlankAux_step c rest acc hstep, ih (c :: acc) htail]
      simp

theorem splitNumAux_step (c : Char) (rest acc : List Char)
    (h : ¬(c = '\n' ∧ isItemStart rest = true)) :
    splitNumAux (c :: rest) acc = splitNumAux rest (c :: acc) := by
  by_cases hc : c = '\n'
  · subst hc
    have : isItemStart rest = false := by
      cases hi : isItemStart rest
      · rfl
      · exact absurd ⟨rfl, hi⟩ h
    simp [splitNumAux, this]
  · simp [splitNumAux, hc]

theorem hasItemBreakB_cons_false (c : Char) (rest : List Char)
    (h : hasItemBreakB (c :: rest) = false) :
    ¬(c = '\n' ∧ isItemStart rest = true) ∧ hasItemBreakB rest = false := by
  by_cases hc : c = '\n'
  · subst hc
    simp only [hasItemBreakB, Bool.or_eq_false_iff] at h
    exact ⟨fun hcon => by simp [hcon.2] at h, h.2⟩
  · refine ⟨by simp [hc], ?_⟩
    simpa [hasItemBreakB, hc] using h

theorem splitNumAux_no_break :
    ∀ l acc : List Char, hasItemBreakB l = false →
      splitNumAux l acc = [acc.reverse ++ l] := by
  intro l
  induction l with
  | nil => intro acc _; simp [splitNumAux]
  | cons c rest ih =>
      intro acc h
      obtain ⟨hstep, htail⟩ := hasItemBreakB_cons_false c rest h
      rw [splitNumAux_step c rest acc hstep, ih (c :: acc) htail]
      simp

theorem indexSections_map_index (i : Nat) (ts : List (List Char)) :
    (indexSections i ts).map (fun s => s.index) = List.range' i ts.length := by
  induction ts generalizing i with
  | nil => simp [indexSections]
  | cons t ts ih => simp [indexSections, List.range', ih]

theorem indexSections_mem (j : Nat) (ts : List (List Char))
    (a : AnswerSection) (ha : a ∈ indexSections j ts) :
    j ≤ a.index ∧ a.id = "section-" ++ decString a.index := by
  induction ts generalizing j with
  | nil => simp [indexSections] at ha
  | cons t ts ih =>
      simp only [indexSections, List.mem_cons] at ha
      rcases ha with rfl | ha
      · exact ⟨le_rfl, rfl⟩
      · have := ih (j + 1) ha
        exact ⟨by omega, this.2⟩

theorem sectionId_inj (a b : Nat)
    (h : "section-" ++ decString a = "section-" ++ decString b) : a = b := by
  have hd := congrArg String.data h
  rw [String.data_append, String.data_append] at hd
  have := List.append_cancel_left hd
  exact decString_inj a b (by cases hda : decString a; cases hdb : decString b; simp_all)

theorem indexSections_ids_nodup (j : Nat) (ts : List (List Char)) :
    ((indexSections j ts).map (fun s => s.id)).Nodup := by
  induction ts generalizing j with
  | nil => simp [indexSections]
  | cons t ts ih =>
      simp only [indexSections, List.map_cons, List.nodup_cons]
      refine ⟨?_, ih (j + 1)⟩
      intro hmem
      rcases List.mem_map.mp hmem with ⟨a, ha, hid⟩
      obtain ⟨hle, hidform⟩ := indexSections_mem (j + 1) ts a ha
      rw [hidform] at hid
      have := sectionId_inj a.index j hid
      omega

theorem parseAnswer_empty : parseAnswerIntoSections "" = [] := by decide

theorem parseAnswer_single (s : String) (h : IsSingleParagraph s) :
    parseAnswerIntoSections s =
      [{ id := "section-" ++ decString 0, text := ⟨trimChars s.data⟩, index := 0 }] := by
  obtain ⟨hne, hblank, hitem⟩ := h
  have h1 : splitBlank s.data = [s.data] := by
    unfold splitBlank
    simpa using splitBlankAux_no_blank s.data [] hblank
  have h2 : splitNum s.data = [s.data] := by
    unfold splitNum
    simpa using splitNumAux_no_break s.data [] hitem
  unfold parseAnswerIntoSections
  rw [h1]
  simp [h2, indexSections, hne]

theorem parseAnswer_index (s : String) :
    (parseAnswerIntoSections s).map (fun a => a.index) =
      List.range (parseAnswerIntoSections s).length := by
  unfold parseAnswerIntoSections
  rw [List.range_eq_range']
  have := indexSections_map_index 0
    ((((splitBlank s.data).flatMap splitNum).map trimChars).filter (· ≠ []))
  rw [this]
  congr 1
  have hlen := congrArg List.length (indexSections_map_index 0
    ((((splitBlank s.data).flatMap splitNum).map trimChars).filter (· ≠ [])))
  simpa using hlen.symm

theorem parseAnswer_ids_nodup (s : String) :
    ((parseAnswerIntoSections s).map (fun a => a.id)).Nodup := by
  unfold parseAnswerIntoSections
  exact indexSections_ids_nodup 0 _

/-! ### ContextBuilder lemmas -/

theorem contextBlocks_eq_filter_map (t : Option ConversationNode)
    (sel : Option Nat) (chain : List ConversationNode) :
    contextBlocks t sel chain =
      (chain.filter includedInContext).map (renderNodeBlock t sel) := by
  induction chain with
  | nil => rfl
  | cons n rest ih =>
      by_cases h : includedInContext n
      · simp [contextBlocks, h, List.filter_cons, ih]
      · simp only [Bool.not_eq_true] at h
        simp [contextBlocks, h, List.filter_cons, ih]

theorem includedInContext_iff (n : ConversationNode) :
    includedInContext n = true ↔ n.includeInContext ≠ some false := by
  unfold includedInContext
  cases h : n.includeInContext with
  | none => simp
  | some b => cases b <;> simp

theorem buildContext_nil (t : Option ConversationNode) (sel : Option Nat) :
    buildContext t [] sel = "" := rfl

theorem buildContext_all_excluded (t : Option ConversationNode)
    (sel : Option Nat) (chain : List ConversationNode)
    (h : ∀ n ∈ chain, n.includeInContext = some false) :
    buildContext t chain sel = "" := by
  have hblocks : contextBlocks t sel chain = [] := by
    rw [contextBlocks_eq_filter_map]
    have : chain.filter includedInContext = [] := by
      rw [List.filter_eq_nil_iff]
      intro n hn
      simp [includedInContext, h n hn]
    rw [this]; rfl
  unfold buildContext
  rw [hblocks]; rfl

theorem renderNodeBlock_no_sel (t : Option ConversationNode)
    (n : ConversationNode) : renderNodeBlock t none n = fullBlock n := by
  cases t <;> rfl

theorem joinSep_infix (sep : String) (blocks : List String) (b : String)
    (hb : b ∈ blocks) : ∃ p q, joinSep sep blocks = p ++ (b ++ q) := by
  induction blocks with
  | nil => cases hb
  | cons a rest ih =>
      rcases List.mem_cons.mp hb with rfl | hmem
      · cases rest with
        | nil =>
            exact ⟨"", "", by simp [joinSep]⟩
        | cons r rs =>
            refine ⟨"", sep ++ joinSep sep (r :: rs), ?_⟩
            show b ++ sep ++ joinSep sep (r :: rs) =
              "" ++ (b ++ (sep ++ joinSep sep (r :: rs)))
            rw [String.empty_append, String.append_assoc]
      · have hrest : rest ≠ [] := List.ne_nil_of_mem hmem
        obtain ⟨r, rs, rfl⟩ := List.exists_cons_of_ne_nil hrest
        obtain ⟨p, q, hpq⟩ := ih hmem
        refine ⟨a ++ sep ++ p, q, ?_⟩
        show a ++ sep ++ joinSep sep (r :: rs) = a ++ sep ++ p ++ (b ++ q)
        rw [hpq]
        simp [String.append_assoc]

theorem buildContext_no_sel (t : Option ConversationNode)
    (chain : List ConversationNode) :
    buildContext t chain none =
      joinSep "\n\n" ((chain.filter includedInContext).map fullBlock) := by
  unfold buildContext
  rw [contextBlocks_eq_filter_map]
  congr 1

theorem buildContext_question_infix (t : Option ConversationNode)
    (chain : List ConversationNode) (n : ConversationNode) (hn : n ∈ chain)
    (hinc : includedInContext n = true) :
    ∃ p q, buildContext t chain none =
      p ++ (("Q: " ++ n.question ++ "\nA: " ++ n.answer) ++ q) := by
  rw [buildContext_no_sel]
  have hmem : fullBlock n ∈ (chain.filter includedInContext).map fullBlock :=
    List.mem_map.mpr ⟨n, List.mem_filter.mpr ⟨hn, hinc⟩, rfl⟩
  exact joinSep_infix "\n\n" _ (fullBlock n) hmem

theorem buildContext_selected (n : ConversationNode) (i : Nat)
    (secs : List AnswerSection) (sec : AnswerSection)
    (hsecs : n.answerSections = some secs)
    (hfind : sectionWithIndex secs i = some sec)
    (hinc : includedInContext n = true) :
    buildContext (some n) [n] (some i) =
      "Q: " ++ n.question ++ "\nA (selected section): " ++ sec.text := by
  have hone : contextBlocks (some n) (some i) [n] =
      [renderNodeBlock (some n) (some i) n] := by
    simp [contextBlocks, hinc]
  have hren : renderNodeBlock (some n) (some i) n =
      "Q: " ++ n.question ++ "\nA (selected section): " ++ sec.text := by
    unfold renderNodeBlock
    simp [hsecs, hfind]
  unfold buildContext
  rw [hone, hren]
  rfl

/-! ### HTML escaping lemmas -/

theorem replaceChar_append (c : Char) (r a b : List Char) :
    replaceChar c r (a ++ b) = replaceChar c r a ++ replaceChar c r b := by
  simp [replaceChar]

theorem escapeChars_append (a b : List Char) :
    escapeChars (a ++ b) = escapeChars a ++ escapeChars b := by
  simp [escapeChars, replaceChar_append]

theorem escapeChars_singleton (c : Char) : escapeChars [c] = entity c := by
  by_cases h1 : c = '&'
  · subst h1; decide
  by_cases h2 : c = '<'
  · subst h2; decide
  by_cases h3 : c = '>'
  · subst h3; decide
  by_cases h4 : c = '"'
  · subst h4; decide
  by_cases h5 : c = '\''
  · subst h5; decide
  by_cases h6 : c = '\n'
  · subst h6; decide
  simp [escapeChars, replaceChar, entity, h1, h2, h3, h4, h5, h6]

theorem escapeChars_eq_flatMap (l : List Char) :
    escapeChars l = l.flatMap entity := by
  induction l with
  | nil => rfl
  | cons c rest ih =>
      have hsplit : c :: rest = [c] ++ rest := rfl
      rw [hsplit, escapeChars_append, ih, escapeChars_singleton]
      simp

theorem entity_no_lt_gt (c : Char) (hc : c ≠ '\n') :
    '<' ∉ entity c ∧ '>' ∉ entity c := by
  by_cases h1 : c = '&'
  · subst h1; decide
  by_cases h2 : c = '<'
  · subst h2; decide
  by_cases h3 : c = '>'
  · subst h3; decide
  by_cases h4 : c = '"'
  · subst h4; decide
  by_cases h5 : c = '\''
  · subst h5; decide
  have : entity c = [c] := by simp [entity, h1, h2, h3, h4, h5, hc]
  rw [this]
  constructor <;> intro hmem <;> simp at hmem
  · exact h2 hmem.symm
  · exact h3 hmem.symm

theorem escapeChars_no_raw (l : List Char) (h : '\n' ∉ l) :
    '<' ∉ escapeChars l ∧ '>' ∉ escapeChars l := by
  rw [escapeChars_eq_flatMap]
  constructor <;> intro hmem <;>
    rcases List.mem_flatMap.mp hmem with ⟨c, hc, hce⟩
  · exact (entity_no_lt_gt c (fun he => h (he ▸ hc))).1 hce
  · exact (entity_no_lt_gt c (fun he => h (he ▸ hc))).2 hce

theorem ampOkB_entity_append (c : Char) (m : List Char) :
    ampOkB (entity c ++ m) = ampOkB m := by
  by_cases h1 : c = '&'
  · subst h1
    show ampOkB ("&amp;".data ++ m) = ampOkB m
    simp [ampOkB, entHead, List.isPrefixOf]
  by_cases h2 : c = '<'
  · subst h2
    show ampOkB ("&lt;".data ++ m) = ampOkB m
    simp [ampOkB, entHead, List.isPrefixOf]
  by_cases h3 : c = '>'
  · subst h3
    show ampOkB ("&gt;".data ++ m) = ampOkB m
    simp [ampOkB, entHead, List.isPrefixOf]
  by_cases h4 : c = '"'
  · subst h4
    show ampOkB ("&quot;".data ++ m) = ampOkB m
    simp [ampOkB, entHead, List.isPrefixOf]
  by_cases h5 : c = '\''
  · subst h5
    show ampOkB ("&#039;".data ++ m) = ampOkB m
    simp [ampOkB, entHead, List.isPrefixOf]
  by_cases h6 : c = '\n'
  · subst h6
    show ampOkB ("<br>".data ++ m) = ampOkB m
    simp [ampOkB]
  have : entity c = [c] := by simp [entity, h1, h2, h3, h4, h5, h6]
  rw [this]
  show ampOkB (c :: m) = ampOkB m
  simp [ampOkB, h1]

theorem ampOkB_escapeChars (l : List Char) :
    ampOkB (escapeChars l) = true := by
  rw [escapeChars_eq_flatMap]
  induction l with
  | nil => rfl
  | cons c rest ih =>
      rw [List.flatMap_cons, ampOkB_entity_append]
      exact ih

/-! ### Node-map toolkit -/

theorem keyList_patchAt (nodes : List (String × ConversationNode))
    (i : String) (f : ConversationNode → ConversationNode) :
    keyList (patchAt nodes i f) = keyList nodes := by
  unfold keyList patchAt
  rw [List.map_map]
  apply List.map_congr_left
  intro kn _
  by_cases h : kn.1 = i <;> simp [h]

theorem lookupN_patchAt (nodes : List (String × ConversationNode))
    (i : String) (f : ConversationNode → ConversationNode) (j : String) :
    lookupN (patchAt nodes i f) j =
      if j = i then (lookupN nodes j).map f else lookupN nodes j := by
  induction nodes with
  | nil => unfold lookupN patchAt; by_cases h : j = i <;> simp [h]
  | cons kn rest ih =>
      by_cases hk : kn.1 = j
      · subst hk
        by_cases hi : kn.1 = i
        · unfold lookupN patchAt
          simp [hi]
        · unfold lookupN patchAt
          simp only [List.map_cons, if_neg hi]
          rw [List.find?_cons_of_pos _ (by simp), List.find?_cons_of_pos _ (by simp)]
      · have hstep : patchAt (kn :: rest) i f =
            (if kn.1 = i then (kn.1, f kn.2) else kn) :: patchAt rest i f := rfl
        rw [hstep]
        by_cases hi : kn.1 = i
        · rw [if_pos hi]
          unfold lookupN
          rw [List.find?_cons_of_neg _ (by simpa using hk),
            List.find?_cons_of_neg _ (by simpa using hk)]
          exact ih
        · rw [if_neg hi]
          unfold lookupN
          rw [List.find?_cons_of_neg _ (by simpa using hk),
            List.find?_cons_of_neg _ (by simpa using hk)]
          exact ih

theorem isKey_patchAt (nodes : List (String × ConversationNode))
    (i : String) (f : ConversationNode → ConversationNode) (j : String) :
    isKey (patchAt nodes i f) j ↔ isKey nodes j := by
  rw [isKey_iff_mem_keyList, isKey_iff_mem_keyList, keyList_patchAt]

theorem lookupN_append (a b : List (String × ConversationNode)) (j : String) :
    lookupN (a ++ b) j = (lookupN a j).or (lookupN b j) := by
  unfold lookupN
  rw [List.find?_append]
  cases h : a.find? (fun kn => kn.1 == j) <;> simp [Option.or]

theorem isKey_append (a b : List (String × ConversationNode)) (j : String) :
    isKey (a ++ b) j ↔ isKey a j ∨ isKey b j := by
  rw [isKey_iff_mem_keyList, isKey_iff_mem_keyList, isKey_iff_mem_keyList]
  unfold keyList
  simp

theorem lookupN_singleton (k : String) (n : ConversationNode) (j : String) :
    lookupN [(k, n)] j = if k = j then some n else none := by
  unfold lookupN
  by_cases h : k = j <;> simp [h]

theorem lookupN_filter (nodes : List (String × ConversationNode))
    (hnd : (keyList nodes).Nodup) (q : String × ConversationNode → Bool)
    (j : String) :
    lookupN (nodes.filter q) j =
      match lookupN nodes j with
      | some n => if q (j, n) then some n else none
      | none => none := by
  induction nodes with
  | nil => simp [lookupN]
  | cons kn rest ih =>
      have hnd' : (keyList rest).Nodup := (List.nodup_cons.mp hnd).2
      by_cases hk : kn.1 = j
      · have hjr : ¬ isKey rest j := by
          rw [isKey_iff_mem_keyList]
          intro hmem
          exact (List.nodup_cons.mp hnd).1 (hk ▸ hmem)
        have hlr : lookupN rest j = none := (lookupN_eq_none_iff rest j).mpr hjr
        have hl : lookupN (kn :: rest) j = some kn.2 := by
          unfold lookupN
          rw [List.find?_cons_of_pos _ (by simpa using hk)]
          rfl
        rw [hl]
        by_cases hq : q kn
        · rw [List.filter_cons_of_pos hq]
          have : lookupN (kn :: rest.filter q) j = some kn.2 := by
            unfold lookupN
            rw [List.find?_cons_of_pos _ (by simpa using hk)]
            rfl
          rw [this]
          have hqj : q (j, kn.2) = true := by
            rw [show (j, kn.2) = kn from by cases kn; simp_all]
            exact hq
          simp [hqj]
        · rw [List.filter_cons_of_neg (by simpa using hq)]
          have hfr : lookupN (rest.filter q) j = none := by
            rw [ih hnd', hlr]
          rw [hfr]
          have hqj : q (j, kn.2) = false := by
            rw [show (j, kn.2) = kn from by cases kn; simp_all]
            simpa using hq
          simp [hqj]
      · have hl : lookupN (kn :: rest) j = lookupN rest j := by
          unfold lookupN
          rw [List.find?_cons_of_neg _ (by simpa using hk)]
        by_cases hq : q kn
        · rw [List.filter_cons_of_pos hq]
          have : lookupN (kn :: rest.filter q) j = lookupN (rest.filter q) j := by
            unfold lookupN
            rw [List.find?_cons_of_neg _ (by simpa using hk)]
          rw [this, hl, ih hnd']
        · rw [List.filter_cons_of_neg (by simpa using hq), hl, ih hnd']

theorem keyList_filter_sublist (nodes : List (String × ConversationNode))
    (q : String × ConversationNode → Bool) :
    (keyList (nodes.filter q)).Sublist (keyList nodes) := by
  unfold keyList
  exact (List.filter_sublist nodes).map Prod.fst

/-! ### Descendant-set saturation -/

theorem subset_childStep (nodes : List (String × ConversationNode))
    (s : Finset String) : s ⊆ childStep nodes s := by
  unfold childStep
  exact Finset.subset_union_left

theorem childStep_mono (nodes : List (String × ConversationNode))
    (s t : Finset String) (h : s ⊆ t) :
    childStep nodes s ⊆ childStep nodes t := by
  intro c hc
  unfold childStep at hc ⊢
  rcases Finset.mem_union.mp hc with h1 | h1
  · exact Finset.mem_union_left _ (h h1)
  · apply Finset.mem_union_right
    rw [Finset.mem_filter] at h1 ⊢
    obtain ⟨hk, kn, hkn, hks, hcc⟩ := h1
    exact ⟨hk, kn, hkn, h hks, hcc⟩

theorem descIter_mono (nodes : List (String × ConversationNode)) :
    ∀ f (s t : Finset String), s ⊆ t →
      descIter nodes f s ⊆ descIter nodes f t := by
  intro f
  induction f with
  | zero => intro s t h; exact h
  | succ f ih =>
      intro s t h
      exact ih _ _ (childStep_mono nodes s t h)

theorem subset_descIter (nodes : List (String × ConversationNode)) :
    ∀ f (s : Finset String), s ⊆ descIter nodes f s := by
  intro f
  induction f with
  | zero => intro s; exact subset_rfl
  | succ f ih =>
      intro s
      exact (subset_childStep nodes s).trans (ih (childStep nodes s))

theorem childStep_subset_union (nodes : List (String × ConversationNode))
    (s : Finset String) : childStep nodes s ⊆ s ∪ keysF nodes := by
  unfold childStep
  apply Finset.union_subset_union subset_rfl
  exact Finset.filter_subset _ _

theorem descIter_subset_union (nodes : List (String × ConversationNode)) :
    ∀ f (s : Finset String), descIter nodes f s ⊆ s ∪ keysF nodes := by
  intro f
  induction f with
  | zero => intro s; exact Finset.subset_union_left
  | succ f ih =>
      intro s
      refine (ih (childStep nodes s)).trans ?_
      exact Finset.union_subset
        ((childStep_subset_union nodes s).trans subset_rfl)
        Finset.subset_union_right

theorem descIter_fix (nodes : List (String × ConversationNode)) :
    ∀ f (s : Finset String), childStep nodes s = s → descIter nodes f s = s := by
  intro f
  induction f with
  | zero => intro s _; rfl
  | succ f ih =>
      intro s h
      show descIter nodes f (childStep nodes s) = s
      rw [h]
      exact ih s h

theorem descIter_growth (nodes : List (String × ConversationNode)) :
    ∀ f (s : Finset String),
      childStep nodes (descIter nodes f s) ≠ descIter nodes f s →
        s.card + f ≤ (descIter nodes f s).card := by
  intro f
  induction f with
  | zero => intro s _; simp [descIter]
  | succ f ih =>
      intro s h
      have hne : childStep nodes s ≠ s := by
        intro he
        rw [descIter_fix nodes (f + 1) s he, he] at h
        exact h rfl
      have hlt : s.card < (childStep nodes s).card :=
        Finset.card_lt_card
          ((subset_childStep nodes s).ssubset_of_ne (Ne.symm hne))
      have hstep : descIter nodes (f + 1) s = descIter nodes f (childStep nodes s) := rfl
      rw [hstep] at h ⊢
      have := ih (childStep nodes s) h
      omega

theorem childStep_descendantSet (nodes : List (String × ConversationNode))
    (i : String) (hk : i ∈ keysF nodes) :
    childStep nodes (descendantSet nodes i) = descendantSet nodes i := by
  by_contra h
  have hgrow := descIter_growth nodes (keysF nodes).card {i} h
  have hsub : descIter nodes (keysF nodes).card {i} ⊆ keysF nodes := by
    refine (descIter_subset_union nodes _ _).trans ?_
    rw [Finset.union_eq_right.mpr (by simpa using hk)]
  have hcard := Finset.card_le_card hsub
  simp [Finset.card_singleton] at hgrow
  omega

theorem mem_descendantSet_self (nodes : List (String × ConversationNode))
    (i : String) : i ∈ descendantSet nodes i :=
  subset_descIter nodes _ {i} (Finset.mem_singleton_self i)

theorem descendantSet_closed (nodes : List (String × ConversationNode))
    (i : String) (hk : i ∈ keysF nodes) (kn : String × ConversationNode)
    (hkn : kn ∈ nodes) (hm : kn.1 ∈ descendantSet nodes i) (c : String)
    (hc : c ∈ kn.2.childrenIds) (hck : c ∈ keysF nodes) :
    c ∈ descendantSet nodes i := by
  have : c ∈ childStep nodes (descendantSet nodes i) := by
    unfold childStep
    apply Finset.mem_union_right
    rw [Finset.mem_filter]
    exact ⟨hck, kn, hkn, hm, hc⟩
  rwa [childStep_descendantSet nodes i hk] at this

/-! ### Reachability lemmas -/

theorem ReachD_isKey_start (nodes : List (String × ConversationNode))
    (x y : String) (h : ReachD nodes x y) : isKey nodes x := by
  induction h with
  | refl h => exact h
  | snoc y z n hr hl hc hk ih => exact ih

theorem ReachD_isKey_end (nodes : List (String × ConversationNode))
    (x y : String) (h : ReachD nodes x y) : isKey nodes y := by
  induction h with
  | refl h => exact h
  | snoc y z n hr hl hc hk ih => exact hk

theorem ReachD_head_cases (nodes : List (String × ConversationNode))
    (x y : String) (h : ReachD nodes x y) :
    x = y ∨ ∃ n c, lookupN nodes x = some n ∧ c ∈ n.childrenIds ∧
      isKey nodes c ∧ ReachD nodes c y := by
  induction h with
  | refl h => exact Or.inl rfl
  | snoc b z n hr hl hc hk ih =>
      rcases ih with rfl | ⟨m, c, hm, hcm, hck, hr2⟩
      · exact Or.inr ⟨n, z, hl, hc, hk, ReachD.refl z hk⟩
      · exact Or.inr ⟨m, c, hm, hcm, hck, ReachD.snoc _ _ _ _ hr2 hl hc hk⟩

theorem descIter_sound (nodes : List (String × ConversationNode))
    (hnd : (keyList nodes).Nodup) (i : String) :
    ∀ f (s : Finset String), (∀ x ∈ s, ReachD nodes i x) →
      ∀ x ∈ descIter nodes f s, ReachD nodes i x := by
  intro f
  induction f with
  | zero => intro s hs; exact hs
  | succ f ih =>
      intro s hs
      apply ih (childStep nodes s)
      intro x hx
      unfold childStep at hx
      rcases Finset.mem_union.mp hx with hx | hx
      · exact hs x hx
      · rw [Finset.mem_filter] at hx
        obtain ⟨hxk, hpred⟩ := hx
        obtain ⟨kn, hkn, hk1, hcx⟩ := hpred
        have hreach := hs kn.1 hk1
        have hlook : lookupN nodes kn.1 = some kn.2 := lookupN_of_mem nodes hnd kn hkn
        have hxkey : isKey nodes x := by
          rw [isKey_iff_mem_keyList]
          simpa [keysF] using hxk
        exact ReachD.snoc _ _ _ _ hreach hlook hcx hxkey

theorem descendantSet_sound (nodes : List (String × ConversationNode))
    (hnd : (keyList nodes).Nodup) (i : String) (hk : isKey nodes i) :
    ∀ x ∈ descendantSet nodes i, ReachD nodes i x := by
  apply descIter_sound nodes hnd i
  intro x hx
  rw [Finset.mem_singleton] at hx
  subst hx
  exact ReachD.refl x hk

theorem descendantSet_complete (nodes : List (String × ConversationNode))
    (_hnd : (keyList nodes).Nodup) (i : String) (hk : isKey nodes i)
    (y : String) (h : ReachD nodes i y) : y ∈ descendantSet nodes i := by
  have hkF : i ∈ keysF nodes := by
    rw [isKey_iff_mem_keyList] at hk
    simpa [keysF] using hk
  induction h with
  | refl _ => exact mem_descendantSet_self nodes i
  | snoc b z n hr hl hc hkz ih =>
      have hb : b ∈ descendantSet nodes i := ih
      have hbn : (b, n) ∈ nodes := mem_of_lookupN_eq_some nodes b n hl
      have hzk : z ∈ keysF nodes := by
        rw [isKey_iff_mem_keyList] at hkz
        simpa [keysF] using hkz
      exact descendantSet_closed nodes i hkF (b, n) hbn hb z hc hzk

theorem mem_descendantSet_iff (nodes : List (String × ConversationNode))
    (hnd : (keyList nodes).Nodup) (i : String) (hk : isKey nodes i)
    (y : String) :
    y ∈ descendantSet nodes i ↔ ReachD nodes i y :=
  ⟨fun h => descendantSet_sound nodes hnd i hk y h,
   fun h => descendantSet_complete nodes hnd i hk y h⟩

/-! ### Invariant preservation -/

theorem mem_patchAt_iff (nodes : List (String × ConversationNode))
    (i : String) (f : ConversationNode → ConversationNode)
    (kn' : String × ConversationNode) :
    kn' ∈ patchAt nodes i f ↔
      ∃ kn ∈ nodes, kn' = (if kn.1 = i then (kn.1, f kn.2) else kn) := by
  unfold patchAt
  rw [List.mem_map]
  constructor
  · rintro ⟨kn, hkn, rfl⟩; exact ⟨kn, hkn, rfl⟩
  · rintro ⟨kn, hkn, rfl⟩; exact ⟨kn, hkn, rfl⟩

theorem ReachD_cases_end (nodes : List (String × ConversationNode))
    (x y : String) (h : ReachD nodes x y) :
    y = x ∨ ∃ y' m, ReachD nodes x y' ∧ lookupN nodes y' = some m ∧
      y ∈ m.childrenIds := by
  cases h with
  | refl _ => exact Or.inl rfl
  | snoc b z n hr hl hc _ => exact Or.inr ⟨b, n, hr, hl, hc⟩

theorem Inv_clearAll : Inv clearAll := by
  constructor <;> simp [clearAll, keyList]

theorem Inv_patchAt (t : ConversationTree) (h : Inv t) (i : String)
    (f : ConversationNode → ConversationNode)
    (hid : ∀ n, (f n).id = n.id) (hpar : ∀ n, (f n).parentId = n.parentId)
    (hch : ∀ n, (f n).childrenIds = n.childrenIds) :
    Inv { t with nodes := patchAt t.nodes i f } := by
  have hproj : ∀ kn : String × ConversationNode,
      ((if kn.1 = i then (kn.1, f kn.2) else kn) : String × ConversationNode).1 = kn.1 ∧
      ((if kn.1 = i then (kn.1, f kn.2) else kn) : String × ConversationNode).2.id = kn.2.id ∧
      ((if kn.1 = i then (kn.1, f kn.2) else kn) : String × ConversationNode).2.parentId = kn.2.parentId ∧
      ((if kn.1 = i then (kn.1, f kn.2) else kn) : String × ConversationNode).2.childrenIds = kn.2.childrenIds := by
    intro kn
    by_cases hcase : kn.1 = i <;> simp [hcase, hid, hpar, hch]
  constructor
  · rintro kn' hkn'
    obtain ⟨kn, hkn, rfl⟩ := (mem_patchAt_iff t.nodes i f _).mp hkn'
    obtain ⟨h1, h2, h3, h4⟩ := hproj kn
    rw [h2, h1, h.wellKeyed kn hkn]
  · show (keyList (patchAt t.nodes i f)).Nodup
    rw [keyList_patchAt]; exact h.nodupKeys
  · exact h.nodupRoots
  · rintro kn' hkn'
    obtain ⟨kn, hkn, rfl⟩ := (mem_patchAt_iff t.nodes i f _).mp hkn'
    obtain ⟨h1, h2, h3, h4⟩ := hproj kn
    rw [h3, h1]
    exact h.rootMem kn hkn
  · intro r hr
    show isKey (patchAt t.nodes i f) r
    rw [isKey_patchAt]
    exact h.rootKey r hr
  · rintro kn' hkn' p hp
    obtain ⟨kn, hkn, rfl⟩ := (mem_patchAt_iff t.nodes i f _).mp hkn'
    obtain ⟨h1, h2, h3, h4⟩ := hproj kn
    rw [h3] at hp
    obtain ⟨pn, hpl, hpc⟩ := h.parentLink kn hkn p hp
    refine ⟨if p = i then f pn else pn, ?_, ?_⟩
    · show lookupN (patchAt t.nodes i f) p = _
      rw [lookupN_patchAt]
      by_cases hpi : p = i
      · subst hpi
        rw [if_pos rfl, hpl, if_pos rfl]
        rfl
      · rw [if_neg hpi, hpl, if_neg hpi]
    · rw [h1]
      by_cases hpi : p = i <;> simp [hpi, hch, hpc]
  · rintro kn' hkn' mn' hmn' hmem
    obtain ⟨kn, hkn, rfl⟩ := (mem_patchAt_iff t.nodes i f _).mp hkn'
    obtain ⟨mn, hmn, rfl⟩ := (mem_patchAt_iff t.nodes i f _).mp hmn'
    obtain ⟨h1, h2, h3, h4⟩ := hproj kn
    obtain ⟨g1, g2, g3, g4⟩ := hproj mn
    rw [g4, h1] at hmem
    rw [h3, g1]
    exact h.childParent kn hkn mn hmn hmem
  · rintro kn' hkn' c hc
    obtain ⟨kn, hkn, rfl⟩ := (mem_patchAt_iff t.nodes i f _).mp hkn'
    obtain ⟨h1, h2, h3, h4⟩ := hproj kn
    rw [h4] at hc
    show isKey (patchAt t.nodes i f) c
    rw [isKey_patchAt]
    exact h.childKey kn hkn c hc

theorem Inv_updateNode (t : ConversationTree) (h : Inv t) (i : String)
    (u : NodeUpdate) : Inv (updateNode t i u) :=
  Inv_patchAt t h i (fun n => applyUpdate n u)
    (fun _ => rfl) (fun _ => rfl) (fun _ => rfl)

theorem Inv_toggleCollapse (t : ConversationTree) (h : Inv t) (i : String) :
    Inv (toggleCollapse t i) :=
  Inv_patchAt t h i (fun n => { n with isCollapsed := !n.isCollapsed })
    (fun _ => rfl) (fun _ => rfl) (fun _ => rfl)

theorem Inv.treeConsistent (t : ConversationTree) (h : Inv t) :
    TreeConsistent t := by
  intro kn hkn
  refine ⟨(h.rootMem kn hkn).symm, ?_, ?_, ?_⟩
  · intro p hp
    constructor
    · rintro ⟨pn, hpl, _⟩
      show (lookupN t.nodes p).isSome
      rw [hpl]; rfl
    · intro _
      exact h.parentLink kn hkn p hp
  · rintro ⟨hroot, mn, hmn, hchild⟩
    have hpar := h.childParent kn hkn mn hmn hchild
    have hnone := (h.rootMem kn hkn).mpr hroot
    rw [hnone] at hpar
    cases hpar
  · cases hp : kn.2.parentId with
    | none => exact Or.inl ((h.rootMem kn hkn).mp hp)
    | some p =>
        obtain ⟨pn, hpl, hpc⟩ := h.parentLink kn hkn p hp
        exact Or.inr ⟨(p, pn), mem_of_lookupN_eq_some t.nodes p pn hpl, hpc⟩

theorem Inv_addNode (t : ConversationTree) (h : Inv t) (nd : ConversationNode)
    (hleaf : nd.childrenIds = []) (t' : ConversationTree)
    (ha : addNode t nd = .ok t') : Inv t' := by
  unfold addNode at ha
  by_cases hk : isKey t.nodes nd.id
  · rw [if_pos hk] at ha; cases ha
  rw [if_neg hk] at ha
  have hfresh : nd.id ∉ keyList t.nodes := by
    rwa [isKey_iff_mem_keyList] at hk
  have hfreshRoot : nd.id ∉ t.rootIds := fun hr => hk (h.rootKey _ hr)
  cases hp : nd.parentId with
  | none =>
      rw [hp] at ha
      obtain rfl := Except.ok.inj ha
      have hkeys : keyList (t.nodes ++ [(nd.id, nd)]) =
          keyList t.nodes ++ [nd.id] := by simp [keyList]
      have hmemkey : ∀ kn : String × ConversationNode, kn ∈ t.nodes →
          kn.1 ≠ nd.id := by
        intro kn hkn he
        exact hfresh (he ▸ List.mem_map.mpr ⟨kn, hkn, rfl⟩)
      constructor
      · intro kn hkn
        rcases List.mem_append.mp hkn with hkn | hkn
        · exact h.wellKeyed kn hkn
        · rw [List.mem_singleton.mp hkn]
      · show (keyList (t.nodes ++ [(nd.id, nd)])).Nodup
        rw [hkeys, List.nodup_append]
        exact ⟨h.nodupKeys, List.nodup_singleton _, by simpa using hfresh⟩
      · show (t.rootIds ++ [nd.id]).Nodup
        rw [List.nodup_append]
        exact ⟨h.nodupRoots, List.nodup_singleton _, by simpa using hfreshRoot⟩
      · intro kn hkn
        rcases List.mem_append.mp hkn with hkn | hkn
        · rw [show ((t.rootIds ++ [nd.id] : List String)) =
            t.rootIds ++ [nd.id] from rfl]
          constructor
          · intro hnone
            exact List.mem_append_left _ ((h.rootMem kn hkn).mp hnone)
          · intro hmem
            rcases List.mem_append.mp hmem with hmem | hmem
            · exact (h.rootMem kn hkn).mpr hmem
            · exact absurd (List.mem_singleton.mp hmem) (hmemkey kn hkn)
        · rw [List.mem_singleton.mp hkn]
          simp [hp]
      · intro r hr
        rcases List.mem_append.mp hr with hr | hr
        · show isKey (t.nodes ++ [(nd.id, nd)]) r
          rw [isKey_append]
          exact Or.inl (h.rootKey r hr)
        · show isKey (t.nodes ++ [(nd.id, nd)]) r
          rw [isKey_append]
          refine Or.inr ?_
          rw [List.mem_singleton.mp hr]
          show (lookupN [(nd.id, nd)] nd.id).isSome
          rw [lookupN_singleton, if_pos rfl]
          rfl
      · intro kn hkn p hpp
        rcases List.mem_append.mp hkn with hkn | hkn
        · obtain ⟨pn, hpl, hpc⟩ := h.parentLink kn hkn p hpp
          refine ⟨pn, ?_, hpc⟩
          rw [lookupN_append, hpl]
          rfl
        · rw [List.mem_singleton.mp hkn] at hpp
          rw [hp] at hpp
          cases hpp
      · intro kn hkn mn hmn hmem
        rcases List.mem_append.mp hmn with hmn | hmn
        · rcases List.mem_append.mp hkn with hkn | hkn
          · exact h.childParent kn hkn mn hmn hmem
          · rw [List.mem_singleton.mp hkn] at hmem ⊢
            exact absurd (h.childKey mn hmn nd.id hmem) hk
        · rw [List.mem_singleton.mp hmn] at hmem
          rw [hleaf] at hmem
          cases hmem
      · intro kn hkn c hc
        rcases List.mem_append.mp hkn with hkn | hkn
        · show isKey (t.nodes ++ [(nd.id, nd)]) c
          rw [isKey_append]
          exact Or.inl (h.childKey kn hkn c hc)
        · rw [List.mem_singleton.mp hkn] at hc
          rw [hleaf] at hc
          cases hc
  | some p =>
      simp only [hp] at ha
      by_cases hpk : isKey t.nodes p
      case neg => rw [if_neg hpk] at ha; cases ha
      rw [if_pos hpk] at ha
      obtain rfl := Except.ok.inj ha
      obtain ⟨pn0, hpn0⟩ := Option.isSome_iff_exists.mp hpk
      have hmemkey : ∀ kn : String × ConversationNode, kn ∈ t.nodes →
          kn.1 ≠ nd.id := by
        intro kn hkn he
        exact hfresh (he ▸ List.mem_map.mpr ⟨kn, hkn, rfl⟩)
      have hkeys : keyList (patchAt t.nodes p (fun pn => appendChild pn nd.id) ++
          [(nd.id, nd)]) = keyList t.nodes ++ [nd.id] := by
        unfold keyList
        rw [List.map_append]
        congr 1
        exact keyList_patchAt t.nodes p _
      have hlook : ∀ j, j ≠ nd.id →
          lookupN (patchAt t.nodes p (fun pn => appendChild pn nd.id) ++
            [(nd.id, nd)]) j =
          (if j = p then (lookupN t.nodes j).map (fun pn => appendChild pn nd.id)
           else lookupN t.nodes j) := by
        intro j hj
        rw [lookupN_append, lookupN_singleton, if_neg (fun he => hj he.symm),
          lookupN_patchAt]
        by_cases hjp : j = p
        · rw [if_pos hjp]
          cases hl : lookupN t.nodes j <;> rfl
        · rw [if_neg hjp]
          cases hl : lookupN t.nodes j <;> rfl
      have hlookNew : lookupN (patchAt t.nodes p
          (fun pn => appendChild pn nd.id) ++ [(nd.id, nd)]) nd.id = some nd := by
        rw [lookupN_append, lookupN_patchAt]
        have hnone : lookupN t.nodes nd.id = none :=
          (lookupN_eq_none_iff _ _).mpr hk
        by_cases hip : nd.id = p
        · rw [if_pos hip, hnone, lookupN_singleton, if_pos rfl]
          rfl
        · rw [if_neg hip, hnone, lookupN_singleton, if_pos rfl]
          rfl
      have hmem' : ∀ kn' : String × ConversationNode,
          kn' ∈ patchAt t.nodes p (fun pn => appendChild pn nd.id) ++
            [(nd.id, nd)] ↔
          (∃ kn ∈ t.nodes,
            kn' = (if kn.1 = p then (kn.1, appendChild kn.2 nd.id) else kn)) ∨
          kn' = (nd.id, nd) := by
        intro kn'
        rw [List.mem_append, mem_patchAt_iff, List.mem_singleton]
      constructor
      · intro kn' hkn'
        rcases (hmem' kn').mp hkn' with ⟨kn, hkn, rfl⟩ | rfl
        · by_cases hcase : kn.1 = p
          · rw [if_pos hcase]
            exact h.wellKeyed kn hkn
          · rw [if_neg hcase]
            exact h.wellKeyed kn hkn
        · rfl
      · show (keyList _).Nodup
        rw [hkeys, List.nodup_append]
        exact ⟨h.nodupKeys, List.nodup_singleton _, by simpa using hfresh⟩
      · exact h.nodupRoots
      · intro kn' hkn'
        rcases (hmem' kn').mp hkn' with ⟨kn, hkn, rfl⟩ | rfl
        · have hpar : (if kn.1 = p then (kn.1, appendChild kn.2 nd.id)
              else kn).2.parentId = kn.2.parentId := by
            by_cases hcase : kn.1 = p <;> simp [hcase, appendChild]
          have hfst : (if kn.1 = p then (kn.1, appendChild kn.2 nd.id)
              else kn).1 = kn.1 := by
            by_cases hcase : kn.1 = p <;> simp [hcase]
          rw [hpar, hfst]
          exact h.rootMem kn hkn
        · show (nd.parentId = none ↔ nd.id ∈ t.rootIds)
          rw [hp]
          simp [hfreshRoot]
      · intro r hr
        show isKey _ r
        rw [isKey_append, isKey_patchAt]
        exact Or.inl (h.rootKey r hr)
      · intro kn' hkn' q hq
        rcases (hmem' kn').mp hkn' with ⟨kn, hkn, rfl⟩ | rfl
        · have hpar : (if kn.1 = p then (kn.1, appendChild kn.2 nd.id)
              else kn).2.parentId = kn.2.parentId := by
            by_cases hcase : kn.1 = p <;> simp [hcase, appendChild]
          have hfst : (if kn.1 = p then (kn.1, appendChild kn.2 nd.id)
              else kn).1 = kn.1 := by
            by_cases hcase : kn.1 = p <;> simp [hcase]
          rw [hpar] at hq
          obtain ⟨pn, hpl, hpc⟩ := h.parentLink kn hkn q hq
          have hqne : q ≠ nd.id := by
            intro he
            rw [he] at hpl
            exact hk (by rw [show isKey t.nodes nd.id =
              (lookupN t.nodes nd.id).isSome from rfl, hpl]; rfl)
          rw [hfst]
          by_cases hqp : q = p
          · refine ⟨appendChild pn nd.id, ?_, ?_⟩
            · rw [hlook q hqne, if_pos hqp, hpl]
              rfl
            · show kn.1 ∈ pn.childrenIds ++ [nd.id]
              exact List.mem_append_left _ hpc
          · refine ⟨pn, ?_, hpc⟩
            rw [hlook q hqne, if_neg hqp, hpl]
        · show ∃ pn', lookupN _ q = some pn' ∧ nd.id ∈ pn'.childrenIds
          have hq' : q = p := by
            rw [show ((nd.id, nd) : String × ConversationNode).2.parentId =
              nd.parentId from rfl, hp] at hq
            exact (Option.some.inj hq).symm
          subst hq'
          have hqne : q ≠ nd.id := by
            intro he
            rw [he] at hpn0
            exact hk (by rw [show isKey t.nodes nd.id =
              (lookupN t.nodes nd.id).isSome from rfl, hpn0]; rfl)
          refine ⟨appendChild pn0 nd.id, ?_, ?_⟩
          · rw [hlook q hqne, if_pos rfl, hpn0]
            rfl
          · show nd.id ∈ pn0.childrenIds ++ [nd.id]
            exact List.mem_append_right _ (List.mem_singleton_self _)
      · intro kn' hkn' mn' hmn' hmem
        rcases (hmem' mn').mp hmn' with ⟨mn, hmn, rfl⟩ | rfl
        · have hfstm : (if mn.1 = p then (mn.1, appendChild mn.2 nd.id)
              else mn).1 = mn.1 := by
            by_cases hcase : mn.1 = p <;> simp [hcase]
          rcases (hmem' kn').mp hkn' with ⟨kn, hkn, rfl⟩ | rfl
          · have hfstk : (if kn.1 = p then (kn.1, appendChild kn.2 nd.id)
                else kn).1 = kn.1 := by
              by_cases hcase : kn.1 = p <;> simp [hcase]
            have hpark : (if kn.1 = p then (kn.1, appendChild kn.2 nd.id)
                else kn).2.parentId = kn.2.parentId := by
              by_cases hcase : kn.1 = p <;> simp [hcase, appendChild]
            rw [hfstk] at hmem
            rw [hpark, hfstm]
            by_cases hmp : mn.1 = p
            · rw [if_pos hmp] at hmem
              rcases (by simpa [appendChild] using hmem :
                  kn.1 ∈ mn.2.childrenIds ∨ kn.1 = nd.id) with hmem2 | hmem2
              · exact h.childParent kn hkn mn hmn hmem2
              · exact absurd hmem2 (hmemkey kn hkn)
            · rw [if_neg hmp] at hmem
              exact h.childParent kn hkn mn hmn hmem
          · rw [show ((nd.id, nd) : String × ConversationNode).1 = nd.id from rfl]
              at hmem
            rw [show ((nd.id, nd) : String × ConversationNode).2.parentId =
              nd.parentId from rfl, hp, hfstm]
            by_cases hmp : mn.1 = p
            · rw [hmp]
            · rw [if_neg hmp] at hmem
              exact absurd (h.childKey mn hmn nd.id hmem) hk
        · rw [show ((nd.id, nd) : String × ConversationNode).2.childrenIds =
            nd.childrenIds from rfl, hleaf] at hmem
          cases hmem
      · intro kn' hkn' c hc
        rcases (hmem' kn').mp hkn' with ⟨kn, hkn, rfl⟩ | rfl
        · by_cases hkp : kn.1 = p
          · rw [if_pos hkp] at hc
            rcases (by simpa [appendChild] using hc :
                c ∈ kn.2.childrenIds ∨ c = nd.id) with hc2 | hc2
            · show isKey _ c
              rw [isKey_append, isKey_patchAt]
              exact Or.inl (h.childKey kn hkn c hc2)
            · rw [hc2]
              show (lookupN _ nd.id).isSome
              rw [hlookNew]
              rfl
          · rw [if_neg hkp] at hc
            show isKey _ c
            rw [isKey_append, isKey_patchAt]
            exact Or.inl (h.childKey kn hkn c hc)
        · rw [show ((nd.id, nd) : String × ConversationNode).2.childrenIds =
            nd.childrenIds from rfl, hleaf] at hc
          cases hc

theorem mem_keysF_iff (nodes : List (String × ConversationNode)) (j : String) :
    j ∈ keysF nodes ↔ isKey nodes j := by
  rw [isKey_iff_mem_keyList, keysF, List.mem_toFinset]

theorem deleteNode_eq_missing (t : ConversationTree) (i : String)
    (hlook : lookupN t.nodes i = none) : deleteNode t i = t := by
  unfold deleteNode
  rw [hlook]

theorem deleteNode_eq_root (t : ConversationTree) (i : String)
    (n : ConversationNode) (hlook : lookupN t.nodes i = some n)
    (hp : n.parentId = none) :
    deleteNode t i =
      { nodes := t.nodes.filter
          (fun kn => decide (kn.1 ∉ descendantSet t.nodes i)),
        rootIds := t.rootIds.filter (fun r => r != i) } := by
  unfold deleteNode
  rw [hlook]
  simp only [hp]

theorem deleteNode_eq_child (t : ConversationTree) (i : String)
    (n : ConversationNode) (p : String) (hlook : lookupN t.nodes i = some n)
    (hp : n.parentId = some p) :
    deleteNode t i =
      { nodes := patchAt
          (t.nodes.filter (fun kn => decide (kn.1 ∉ descendantSet t.nodes i)))
          p (fun m => removeChildId m i),
        rootIds := t.rootIds } := by
  unfold deleteNode
  rw [hlook]
  simp only [hp]

theorem delete_escape (t : ConversationTree) (h : Inv t) (i : String)
    (n : ConversationNode) (hlook : lookupN t.nodes i = some n)
    (kn : String × ConversationNode) (hkn : kn ∈ t.nodes)
    (hknD : kn.1 ∉ descendantSet t.nodes i)
    (c : String) (hc : c ∈ kn.2.childrenIds)
    (hcD : c ∈ descendantSet t.nodes i) :
    c = i ∧ n.parentId = some kn.1 := by
  have hk : isKey t.nodes i := by
    rw [show isKey t.nodes i = (lookupN t.nodes i).isSome from rfl, hlook]; rfl
  have hreach : ReachD t.nodes i c :=
    descendantSet_sound t.nodes h.nodupKeys i hk c hcD
  have hck : isKey t.nodes c := h.childKey kn hkn c hc
  obtain ⟨cn, hcn⟩ := Option.isSome_iff_exists.mp hck
  have hcmem : (c, cn) ∈ t.nodes := mem_of_lookupN_eq_some _ _ _ hcn
  have hcp : cn.parentId = some kn.1 := h.childParent (c, cn) hcmem kn hkn hc
  by_cases hci : c = i
  · subst hci
    rw [hlook] at hcn
    obtain rfl := Option.some.inj hcn
    exact ⟨rfl, hcp⟩
  · exfalso
    rcases ReachD_cases_end t.nodes i c hreach with hic | ⟨y, m, hry, hly, hcy⟩
    · exact hci hic
    · have hymem : (y, m) ∈ t.nodes := mem_of_lookupN_eq_some _ _ _ hly
      have hcp2 : cn.parentId = some y := h.childParent (c, cn) hcmem (y, m) hymem hcy
      have hyk : y = kn.1 := by
        rw [hcp] at hcp2
        exact (Option.some.inj hcp2).symm
      rw [hyk] at hry
      exact hknD (descendantSet_complete t.nodes h.nodupKeys i hk kn.1 hry)

theorem delete_root_in_D (t : ConversationTree) (h : Inv t) (i : String)
    (hk : isKey t.nodes i) (r : String) (hr : r ∈ t.rootIds)
    (hrD : r ∈ descendantSet t.nodes i) : r = i := by
  by_contra hri
  have hreach : ReachD t.nodes i r :=
    descendantSet_sound t.nodes h.nodupKeys i hk r hrD
  rcases ReachD_cases_end t.nodes i r hreach with hir | ⟨y, m, _, hly, hcy⟩
  · exact hri hir
  · have hrk : isKey t.nodes r := h.rootKey r hr
    obtain ⟨rn, hrn⟩ := Option.isSome_iff_exists.mp hrk
    have hrmem : (r, rn) ∈ t.nodes := mem_of_lookupN_eq_some _ _ _ hrn
    have hymem : (y, m) ∈ t.nodes := mem_of_lookupN_eq_some _ _ _ hly
    have hrp : rn.parentId = some y := h.childParent (r, rn) hrmem (y, m) hymem hcy
    have hrnone : rn.parentId = none := (h.rootMem (r, rn) hrmem).mpr hr
    rw [hrnone] at hrp
    cases hrp

theorem delete_parent_escape (t : ConversationTree) (h : Inv t) (i : String)
    (hk : isKey t.nodes i) (kn : String × ConversationNode)
    (hkn : kn ∈ t.nodes) (hknD : kn.1 ∉ descendantSet t.nodes i)
    (q : String) (hq : kn.2.parentId = some q) :
    q ∉ descendantSet t.nodes i := by
  intro hqD
  obtain ⟨pn, hpl, hpc⟩ := h.parentLink kn hkn q hq
  have hqmem : (q, pn) ∈ t.nodes := mem_of_lookupN_eq_some _ _ _ hpl
  have hkF : i ∈ keysF t.nodes := (mem_keysF_iff t.nodes i).mpr hk
  have hknF : kn.1 ∈ keysF t.nodes := by
    rw [mem_keysF_iff, isKey_iff_mem_keyList]
    exact List.mem_map.mpr ⟨kn, hkn, rfl⟩
  exact hknD (descendantSet_closed t.nodes i hkF (q, pn) hqmem hqD kn.1 hpc hknF)

theorem lookupN_remaining (t : ConversationTree) (h : Inv t) (i j : String) :
    lookupN (t.nodes.filter
        (fun kn => decide (kn.1 ∉ descendantSet t.nodes i))) j =
      if j ∈ descendantSet t.nodes i then none else lookupN t.nodes j := by
  rw [lookupN_filter t.nodes h.nodupKeys]
  cases hl : lookupN t.nodes j
  · by_cases hj : j ∈ descendantSet t.nodes i <;> simp [hj]
  · by_cases hj : j ∈ descendantSet t.nodes i <;> simp [hj]

theorem mem_remaining (t : ConversationTree) (i : String)
    (kn : String × ConversationNode) :
    kn ∈ t.nodes.filter (fun kn => decide (kn.1 ∉ descendantSet t.nodes i)) ↔
      kn ∈ t.nodes ∧ kn.1 ∉ descendantSet t.nodes i := by
  rw [List.mem_filter]
  simp

theorem Inv_deleteNode (t : ConversationTree) (h : Inv t) (i : String) :
    Inv (deleteNode t i) := by
  cases hlook : lookupN t.nodes i with
  | none => rw [deleteNode_eq_missing t i hlook]; exact h
  | some n =>
      have hk : isKey t.nodes i := by
        rw [show isKey t.nodes i = (lookupN t.nodes i).isSome from rfl, hlook]
        rfl
      have hiD : i ∈ descendantSet t.nodes i := mem_descendantSet_self t.nodes i
      have hndRem : (keyList (t.nodes.filter
          (fun kn => decide (kn.1 ∉ descendantSet t.nodes i)))).Nodup :=
        (keyList_filter_sublist t.nodes _).nodup h.nodupKeys
      have hmemRem := mem_remaining t i
      have hlookRem := lookupN_remaining t h i
      cases hp : n.parentId with
      | none =>
          rw [deleteNode_eq_root t i n hlook hp]
          have hrootsMem : ∀ r, r ∈ t.rootIds.filter (fun r => r != i) ↔
              r ∈ t.rootIds ∧ r ≠ i := by
            intro r
            rw [List.mem_filter]
            simp
          constructor
          · intro kn hkn
            exact h.wellKeyed kn ((hmemRem kn).mp hkn).1
          · exact hndRem
          · exact (List.filter_sublist _).nodup h.nodupRoots
          · intro kn hkn
            obtain ⟨hknN, hknD⟩ := (hmemRem kn).mp hkn
            constructor
            · intro hnone
              exact (hrootsMem kn.1).mpr
                ⟨(h.rootMem kn hknN).mp hnone, fun he => hknD (he ▸ hiD)⟩
            · intro hmem
              exact (h.rootMem kn hknN).mpr ((hrootsMem kn.1).mp hmem).1
          · intro r hr
            obtain ⟨hrR, hri⟩ := (hrootsMem r).mp hr
            show (lookupN _ r).isSome
            rw [hlookRem r,
              if_neg (fun hrD => hri (delete_root_in_D t h i hk r hrR hrD))]
            exact h.rootKey r hrR
          · intro kn hkn q hq
            obtain ⟨hknN, hknD⟩ := (hmemRem kn).mp hkn
            obtain ⟨pn, hpl, hpc⟩ := h.parentLink kn hknN q hq
            have hqD := delete_parent_escape t h i hk kn hknN hknD q hq
            refine ⟨pn, ?_, hpc⟩
            rw [hlookRem q, if_neg hqD]
            exact hpl
          · intro kn hkn mn hmn hmem
            exact h.childParent kn ((hmemRem kn).mp hkn).1 mn
              ((hmemRem mn).mp hmn).1 hmem
          · intro kn hkn c hc
            obtain ⟨hknN, hknD⟩ := (hmemRem kn).mp hkn
            have hcD : c ∉ descendantSet t.nodes i := by
              intro hcD
              obtain ⟨hci, hpar⟩ := delete_escape t h i n hlook kn hknN hknD c hc hcD
              rw [hp] at hpar
              cases hpar
            show (lookupN _ c).isSome
            rw [hlookRem c, if_neg hcD]
            exact h.childKey kn hknN c hc
      | some p =>
          rw [deleteNode_eq_child t i n p hlook hp]
          have hiroot : i ∉ t.rootIds := by
            intro hir
            have hnone := (h.rootMem (i, n)
              (mem_of_lookupN_eq_some _ _ _ hlook)).mpr hir
            rw [show ((i, n) : String × ConversationNode).2.parentId =
              n.parentId from rfl, hp] at hnone
            cases hnone
          constructor
          · intro kn' hkn'
            obtain ⟨kn, hkn, rfl⟩ := (mem_patchAt_iff (t.nodes.filter (fun kn => decide (kn.1 ∉ descendantSet t.nodes i))) p (fun m => removeChildId m i) kn').mp hkn'
            obtain ⟨hknN, _⟩ := (hmemRem kn).mp hkn
            by_cases hcase : kn.1 = p
            · rw [if_pos hcase]
              exact h.wellKeyed kn hknN
            · rw [if_neg hcase]
              exact h.wellKeyed kn hknN
          · show (keyList _).Nodup
            rw [keyList_patchAt]
            exact hndRem
          · exact h.nodupRoots
          · intro kn' hkn'
            obtain ⟨kn, hkn, rfl⟩ := (mem_patchAt_iff (t.nodes.filter (fun kn => decide (kn.1 ∉ descendantSet t.nodes i))) p (fun m => removeChildId m i) kn').mp hkn'
            obtain ⟨hknN, _⟩ := (hmemRem kn).mp hkn
            have hpar : (if kn.1 = p then (kn.1, removeChildId kn.2 i)
                else kn).2.parentId = kn.2.parentId := by
              by_cases hcase : kn.1 = p <;> simp [hcase, removeChildId]
            have hfst : (if kn.1 = p then (kn.1, removeChildId kn.2 i)
                else kn).1 = kn.1 := by
              by_cases hcase : kn.1 = p <;> simp [hcase]
            rw [hpar, hfst]
            exact h.rootMem kn hknN
          · intro r hr
            show isKey _ r
            rw [isKey_patchAt]
            have hrD : r ∉ descendantSet t.nodes i := by
              intro hrD
              exact hiroot ((delete_root_in_D t h i hk r hr hrD) ▸ hr)
            show (lookupN _ r).isSome
            rw [hlookRem r, if_neg hrD]
            exact h.rootKey r hr
          · intro kn' hkn' q hq
            obtain ⟨kn, hkn, rfl⟩ := (mem_patchAt_iff (t.nodes.filter (fun kn => decide (kn.1 ∉ descendantSet t.nodes i))) p (fun m => removeChildId m i) kn').mp hkn'
            obtain ⟨hknN, hknD⟩ := (hmemRem kn).mp hkn
            have hpar : (if kn.1 = p then (kn.1, removeChildId kn.2 i)
                else kn).2.parentId = kn.2.parentId := by
              by_cases hcase : kn.1 = p <;> simp [hcase, removeChildId]
            have hfst : (if kn.1 = p then (kn.1, removeChildId kn.2 i)
                else kn).1 = kn.1 := by
              by_cases hcase : kn.1 = p <;> simp [hcase]
            rw [hpar] at hq
            obtain ⟨pn, hpl, hpc⟩ := h.parentLink kn hknN q hq
            have hqD := delete_parent_escape t h i hk kn hknN hknD q hq
            have hknei : kn.1 ≠ i := fun he => hknD (he ▸ hiD)
            rw [hfst]
            by_cases hqp : q = p
            · refine ⟨removeChildId pn i, ?_, ?_⟩
              · rw [lookupN_patchAt, if_pos hqp, hlookRem q, if_neg hqD, hpl]
                rfl
              · show kn.1 ∈ pn.childrenIds.filter (fun x => x != i)
                rw [List.mem_filter]
                exact ⟨hpc, by simpa using hknei⟩
            · refine ⟨pn, ?_, hpc⟩
              rw [lookupN_patchAt, if_neg hqp, hlookRem q, if_neg hqD]
              exact hpl
          · intro kn' hkn' mn' hmn' hmem
            obtain ⟨kn, hkn, rfl⟩ := (mem_patchAt_iff (t.nodes.filter (fun kn => decide (kn.1 ∉ descendantSet t.nodes i))) p (fun m => removeChildId m i) kn').mp hkn'
            obtain ⟨mn, hmn, rfl⟩ := (mem_patchAt_iff (t.nodes.filter (fun kn => decide (kn.1 ∉ descendantSet t.nodes i))) p (fun m => removeChildId m i) mn').mp hmn'
            obtain ⟨hknN, _⟩ := (hmemRem kn).mp hkn
            obtain ⟨hmnN, _⟩ := (hmemRem mn).mp hmn
            have hpark : (if kn.1 = p then (kn.1, removeChildId kn.2 i)
                else kn).2.parentId = kn.2.parentId := by
              by_cases hcase : kn.1 = p <;> simp [hcase, removeChildId]
            have hfstk : (if kn.1 = p then (kn.1, removeChildId kn.2 i)
                else kn).1 = kn.1 := by
              by_cases hcase : kn.1 = p <;> simp [hcase]
            have hfstm : (if mn.1 = p then (mn.1, removeChildId mn.2 i)
                else mn).1 = mn.1 := by
              by_cases hcase : mn.1 = p <;> simp [hcase]
            rw [hfstk] at hmem
            have hmemOrig : kn.1 ∈ mn.2.childrenIds := by
              by_cases hmp : mn.1 = p
              · rw [if_pos hmp] at hmem
                exact (by simpa [removeChildId] using hmem :
                  kn.1 ∈ mn.2.childrenIds ∧ ¬ kn.1 = i).1
              · rw [if_neg hmp] at hmem
                exact hmem
            rw [hpark, hfstm]
            exact h.childParent kn hknN mn hmnN hmemOrig
          · intro kn' hkn' c hc
            obtain ⟨kn, hkn, rfl⟩ := (mem_patchAt_iff (t.nodes.filter (fun kn => decide (kn.1 ∉ descendantSet t.nodes i))) p (fun m => removeChildId m i) kn').mp hkn'
            obtain ⟨hknN, hknD⟩ := (hmemRem kn).mp hkn
            show isKey _ c
            rw [isKey_patchAt]
            by_cases hkp : kn.1 = p
            · rw [if_pos hkp] at hc
              obtain ⟨hcOrig, hcne⟩ := (by simpa [removeChildId] using hc :
                c ∈ kn.2.childrenIds ∧ ¬ c = i)
              have hcD : c ∉ descendantSet t.nodes i := by
                intro hcD
                obtain ⟨hci, _⟩ :=
                  delete_escape t h i n hlook kn hknN hknD c hcOrig hcD
                exact hcne hci
              show (lookupN _ c).isSome
              rw [hlookRem c, if_neg hcD]
              exact h.childKey kn hknN c hcOrig
            · rw [if_neg hkp] at hc
              have hcD : c ∉ descendantSet t.nodes i := by
                intro hcD
                obtain ⟨_, hpar2⟩ :=
                  delete_escape t h i n hlook kn hknN hknD c hc hcD
                rw [hp] at hpar2
                exact hkp (Option.some.inj hpar2).symm
              show (lookupN _ c).isSome
              rw [hlookRem c, if_neg hcD]
              exact h.childKey kn hknN c hc

theorem isKey_remaining (t : ConversationTree) (h : Inv t) (i y : String) :
    isKey (t.nodes.filter
        (fun kn => decide (kn.1 ∉ descendantSet t.nodes i))) y ↔
      (isKey t.nodes y ∧ y ∉ descendantSet t.nodes i) := by
  show (lookupN _ y).isSome ↔ _
  rw [lookupN_remaining t h i y]
  by_cases hy : y ∈ descendantSet t.nodes i
  · simp [hy]
  · simp [hy, isKey]

theorem deleteNode_key_iff (t : ConversationTree) (h : Inv t) (i : String)
    (hik : isKey t.nodes i) (y : String) :
    isKey (deleteNode t i).nodes y ↔
      (isKey t.nodes y ∧ ¬ ReachD t.nodes i y) := by
  obtain ⟨n, hlook⟩ := Option.isSome_iff_exists.mp hik
  have hbase : ∀ z, isKey (t.nodes.filter
      (fun kn => decide (kn.1 ∉ descendantSet t.nodes i))) z ↔
        (isKey t.nodes z ∧ ¬ ReachD t.nodes i z) := by
    intro z
    rw [isKey_remaining t h i z,
      mem_descendantSet_iff t.nodes h.nodupKeys i hik z]
  cases hp : n.parentId with
  | none =>
      rw [deleteNode_eq_root t i n hlook hp]
      exact hbase y
  | some p =>
      rw [deleteNode_eq_child t i n p hlook hp]
      show isKey (patchAt (t.nodes.filter
        (fun kn => decide (kn.1 ∉ descendantSet t.nodes i))) p
        (fun m => removeChildId m i)) y ↔ _
      rw [isKey_patchAt]
      exact hbase y

theorem deleteNode_parent_pruned (t : ConversationTree)
    (i : String) (n : ConversationNode) (hlook : lookupN t.nodes i = some n)
    (p : String) (hp : n.parentId = some p) (pn' : ConversationNode)
    (hl' : lookupN (deleteNode t i).nodes p = some pn') :
    i ∉ pn'.childrenIds := by
  rw [deleteNode_eq_child t i n p hlook hp] at hl'
  replace hl' : lookupN (patchAt (t.nodes.filter
      (fun kn => decide (kn.1 ∉ descendantSet t.nodes i))) p
      (fun m => removeChildId m i)) p = some pn' := hl'
  rw [lookupN_patchAt, if_pos rfl] at hl'
  cases hl2 : lookupN (t.nodes.filter
      (fun kn => decide (kn.1 ∉ descendantSet t.nodes i))) p with
  | none => rw [hl2] at hl'; cases hl'
  | some pn0 =>
      rw [hl2] at hl'
      obtain rfl := Option.some.inj hl'
      show i ∉ pn0.childrenIds.filter (fun x => x != i)
      intro hmem
      have := (List.mem_filter.mp hmem).2
      simp at this

theorem deleteNode_rootIds_root (t : ConversationTree) (i : String)
    (n : ConversationNode) (hlook : lookupN t.nodes i = some n)
    (hp : n.parentId = none) :
    (deleteNode t i).rootIds = t.rootIds.filter (fun r => r != i) := by
  rw [deleteNode_eq_root t i n hlook hp]

theorem deleteNode_no_stale_child (t : ConversationTree) (h : Inv t)
    (i : String) (hik : isKey t.nodes i) :
    ∀ kn ∈ (deleteNode t i).nodes, ∀ c ∈
      (kn : String × ConversationNode).2.childrenIds,
      ¬ ReachD t.nodes i c := by
  obtain ⟨n, hlook⟩ := Option.isSome_iff_exists.mp hik
  have hmemRem := mem_remaining t i
  have hreach := mem_descendantSet_iff t.nodes h.nodupKeys i hik
  cases hp : n.parentId with
  | none =>
      rw [deleteNode_eq_root t i n hlook hp]
      intro kn hkn c hc hr
      obtain ⟨hknN, hknD⟩ := (hmemRem kn).mp hkn
      obtain ⟨hci, hpar⟩ := delete_escape t h i n hlook kn hknN hknD c hc
        ((hreach c).mpr hr)
      rw [hp] at hpar
      cases hpar
  | some p =>
      rw [deleteNode_eq_child t i n p hlook hp]
      intro kn' hkn' c hc hr
      obtain ⟨kn, hkn, rfl⟩ := (mem_patchAt_iff (t.nodes.filter
        (fun kn => decide (kn.1 ∉ descendantSet t.nodes i))) p
        (fun m => removeChildId m i) kn').mp hkn'
      obtain ⟨hknN, hknD⟩ := (hmemRem kn).mp hkn
      by_cases hkp : kn.1 = p
      · rw [if_pos hkp] at hc
        obtain ⟨hcOrig, hcne⟩ := (by simpa [removeChildId] using hc :
          c ∈ kn.2.childrenIds ∧ ¬ c = i)
        obtain ⟨hci, _⟩ := delete_escape t h i n hlook kn hknN hknD c hcOrig
          ((hreach c).mpr hr)
        exact hcne hci
      · rw [if_neg hkp] at hc
        obtain ⟨hci, hpar2⟩ := delete_escape t h i n hlook kn hknN hknD c hc
          ((hreach c).mpr hr)
        rw [hp] at hpar2
        exact hkp (Option.some.inj hpar2).symm

theorem deleteNode_no_stale_root (t : ConversationTree) (h : Inv t)
    (i : String) (hik : isKey t.nodes i) :
    ∀ r ∈ (deleteNode t i).rootIds, ¬ ReachD t.nodes i r := by
  obtain ⟨n, hlook⟩ := Option.isSome_iff_exists.mp hik
  have hreach := mem_descendantSet_iff t.nodes h.nodupKeys i hik
  cases hp : n.parentId with
  | none =>
      rw [deleteNode_eq_root t i n hlook hp]
      intro r hr hrr
      have hpair := List.mem_filter.mp hr
      have hri : r ≠ i := by simpa using hpair.2
      exact hri (delete_root_in_D t h i hik r hpair.1 ((hreach r).mpr hrr))
  | some p =>
      rw [deleteNode_eq_child t i n p hlook hp]
      intro r hr hrr
      have hiroot : i ∉ t.rootIds := by
        intro hir
        have hnone := (h.rootMem (i, n)
          (mem_of_lookupN_eq_some _ _ _ hlook)).mpr hir
        rw [show ((i, n) : String × ConversationNode).2.parentId =
          n.parentId from rfl, hp] at hnone
        cases hnone
      have hri := delete_root_in_D t h i hik r hr ((hreach r).mpr hrr)
      exact hiroot (hri ▸ hr)

/-! ### Node-chain lemmas -/

theorem upPath_mono (nodes : List (String × ConversationNode)) :
    ∀ f x l, upPath nodes f x = some l → upPath nodes (f + 1) x = some l := by
  intro f
  induction f with
  | zero => intro x l h; cases h
  | succ f ih =>
      intro x l h
      cases hl : lookupN nodes x with
      | none => simp [upPath, hl] at h
      | some n =>
          cases hp : n.parentId with
          | none =>
              simp only [upPath, hl, hp] at h ⊢
              exact h
          | some p =>
              simp only [upPath, hl, hp] at h
              cases hup : upPath nodes f p with
              | none => simp [hup] at h
              | some l' =>
                  have hih := ih p l' hup
                  simp only [upPath] at hih
                  simp only [upPath, hl, hp]
                  rw [hih]
                  simpa [hup] using h

theorem upPath_le (nodes : List (String × ConversationNode)) (f g : Nat)
    (hfg : f ≤ g) (x : String) (l : List String)
    (h : upPath nodes f x = some l) : upPath nodes g x = some l := by
  induction g with
  | zero =>
      have : f = 0 := by omega
      rw [this] at h
      cases h
  | succ g ih =>
      by_cases hfg' : f = g + 1
      · rw [← hfg']; exact h
      · exact upPath_mono nodes g x l (ih (by omega))

theorem upPath_unique (nodes : List (String × ConversationNode)) :
    ∀ f g x l m, upPath nodes f x = some l → upPath nodes g x = some m →
      l = m := by
  intro f
  induction f with
  | zero => intro g x l m h; cases h
  | succ f ih =>
      intro g x l m h1 h2
      cases g with
      | zero => cases h2
      | succ g =>
          cases hl : lookupN nodes x with
          | none => simp [upPath, hl] at h1
          | some n =>
              simp only [upPath, hl] at h1 h2
              cases hp : n.parentId with
              | none =>
                  simp only [hp] at h1 h2
                  rw [← Option.some.inj h1, ← Option.some.inj h2]
              | some p =>
                  simp only [hp] at h1 h2
                  cases hu1 : upPath nodes f p with
                  | none => simp [hu1] at h1
                  | some l1 =>
                      cases hu2 : upPath nodes g p with
                      | none => simp [hu2] at h2
                      | some l2 =>
                          simp only [hu1, Option.map_some'] at h1
                          simp only [hu2, Option.map_some'] at h2
                          rw [← Option.some.inj h1, ← Option.some.inj h2,
                            ih g p l1 l2 hu1 hu2]

theorem upPath_head (nodes : List (String × ConversationNode)) (f : Nat)
    (x : String) (l : List String) (h : upPath nodes f x = some l) :
    ∃ l', l = x :: l' := by
  cases f with
  | zero => cases h
  | succ f =>
      cases hl : lookupN nodes x with
      | none => simp [upPath, hl] at h
      | some n =>
          simp only [upPath, hl] at h
          cases hp : n.parentId with
          | none =>
              simp only [hp] at h
              exact ⟨[], (Option.some.inj h).symm⟩
          | some p =>
              simp only [hp] at h
              cases hu : upPath nodes f p with
              | none => simp [hu] at h
              | some l1 =>
                  simp only [hu, Option.map_some'] at h
                  exact ⟨l1, (Option.some.inj h).symm⟩

theorem upPath_drop (nodes : List (String × ConversationNode)) :
    ∀ f x l, upPath nodes f x = some l →
      ∀ (j : Nat) (hj : j < l.length),
        upPath nodes f (l.get ⟨j, hj⟩) = some (l.drop j) := by
  intro f
  induction f with
  | zero => intro x l h; cases h
  | succ f ih =>
      intro x l h j hj
      obtain ⟨l', rfl⟩ := upPath_head nodes (f + 1) x l h
      cases j with
      | zero => simpa using h
      | succ j' =>
          cases hl : lookupN nodes x with
          | none => simp [upPath, hl] at h
          | some n =>
              simp only [upPath, hl] at h
              cases hp : n.parentId with
              | none =>
                  simp only [hp] at h
                  have hnil : l' = [] := by
                    have := Option.some.inj h
                    simpa using this.symm
                  subst hnil
                  exact absurd hj (by simp)
              | some p =>
                  simp only [hp] at h
                  cases hu : upPath nodes f p with
                  | none => simp [hu] at h
                  | some l1 =>
                      simp only [hu, Option.map_some'] at h
                      have hl1 : l1 = l' := by
                        have := Option.some.inj h
                        simpa using this
                      subst hl1
                      have hj' : j' < l1.length := by simpa using hj
                      have hstep := ih p l1 hu j' hj'
                      show upPath nodes (f + 1) (l1.get ⟨j', hj'⟩) =
                        some (l1.drop j')
                      exact upPath_mono nodes f _ _ hstep

theorem upPath_nodup (nodes : List (String × ConversationNode)) (f : Nat)
    (x : String) (l : List String) (h : upPath nodes f x = some l) :
    l.Nodup := by
  rw [List.nodup_iff_injective_get]
  intro j k hjk
  by_contra hne
  have hdj := upPath_drop nodes f x l h j.val j.isLt
  have hdk := upPath_drop nodes f x l h k.val k.isLt
  have hgj : l.get ⟨j.val, j.isLt⟩ = l.get j := rfl
  have hgk : l.get ⟨k.val, k.isLt⟩ = l.get k := rfl
  rw [hgj, hjk, ← hgk] at hdj
  have hdrop : l.drop j.val = l.drop k.val :=
    Option.some.inj ((hdk.symm.trans hdj).symm)
  have hlen := congrArg List.length hdrop
  simp at hlen
  have hj := j.isLt
  have hk := k.isLt
  exact hne (Fin.ext (by omega))

theorem chainUp_spec (nodes : List (String × ConversationNode))
    (hwk : ∀ kn ∈ nodes, (kn : String × ConversationNode).2.id = kn.1) :
    ∀ f x l, upPath nodes f x = some l → l.Nodup →
      ∀ f', f ≤ f' → ∀ visited : List String, (∀ v ∈ visited, v ∉ l) →
      (chainUp nodes f' visited x).map (fun nd => nd.id) = l ∧
      List.Chain' (fun a b => a.parentId = some b.id)
        (chainUp nodes f' visited x) ∧
      (∀ u, (chainUp nodes f' visited x).getLast? = some u →
        u.parentId = none) ∧
      (∀ u, (chainUp nodes f' visited x).head? = some u →
        lookupN nodes x = some u) := by
  intro f
  induction f with
  | zero => intro x l h; cases h
  | succ f ih =>
      intro x l h hnd f' hf visited hdis
      obtain ⟨ltail, rfl⟩ := upPath_head nodes (f + 1) x l h
      have hxguard : x ∉ visited := by
        intro hxv
        exact hdis x hxv (List.mem_cons_self x ltail)
      obtain ⟨g, rfl⟩ : ∃ g, f' = g + 1 := ⟨f' - 1, by omega⟩
      cases hl : lookupN nodes x with
      | none => simp [upPath, hl] at h
      | some n =>
          have hnid : n.id = x := hwk (x, n) (mem_of_lookupN_eq_some _ _ _ hl)
          simp only [upPath, hl] at h
          cases hp : n.parentId with
          | none =>
              simp only [hp] at h
              have hltail : ltail = [] := by
                have := Option.some.inj h
                simpa using this.symm
              subst hltail
              have hchain : chainUp nodes (g + 1) visited x = [n] := by
                simp [chainUp, hxguard, hl, hp]
              rw [hchain]
              refine ⟨by simp [hnid], List.chain'_singleton n, ?_, ?_⟩
              · intro u hu
                rw [show ([n] : List ConversationNode).getLast? = some n
                  from rfl] at hu
                exact Option.some.inj hu ▸ hp
              · intro u hu
                rw [show ([n] : List ConversationNode).head? = some n
                  from rfl] at hu
                exact congrArg some (Option.some.inj hu)
          | some p =>
              simp only [hp] at h
              cases hu : upPath nodes f p with
              | none => simp [hu] at h
              | some l1 =>
                  simp only [hu, Option.map_some'] at h
                  have hl1 : l1 = ltail := by
                    have := Option.some.inj h
                    simpa using this
                  subst hl1
                  have hndtail : l1.Nodup := (List.nodup_cons.mp hnd).2
                  have hxnotl1 : x ∉ l1 := (List.nodup_cons.mp hnd).1
                  have hdis' : ∀ v ∈ x :: visited, v ∉ l1 := by
                    intro v hv
                    rcases List.mem_cons.mp hv with rfl | hv
                    · exact hxnotl1
                    · intro hvl
                      exact hdis v hv (List.mem_cons_of_mem x hvl)
                  obtain ⟨hmap, hchain, hlast, hhead⟩ :=
                    ih p l1 hu hndtail g (by omega) (x :: visited) hdis'
                  have hstep : chainUp nodes (g + 1) visited x =
                      n :: chainUp nodes g (x :: visited) p := by
                    simp [chainUp, hxguard, hl, hp]
                  rw [hstep]
                  have hne : chainUp nodes g (x :: visited) p ≠ [] := by
                    intro hnil
                    rw [hnil] at hmap
                    obtain ⟨l2, rfl⟩ := upPath_head nodes f p l1 hu
                    cases hmap
                  obtain ⟨u0, urest, hcons⟩ :=
                    List.exists_cons_of_ne_nil hne
                  refine ⟨?_, ?_, ?_, ?_⟩
                  · simp only [List.map_cons, hnid, hmap]
                  · rw [hcons]
                    rw [List.chain'_cons]
                    constructor
                    · have hu0 : lookupN nodes p = some u0 := by
                        apply hhead
                        rw [hcons]
                        rfl
                      have hu0id : u0.id = p :=
                        hwk (p, u0) (mem_of_lookupN_eq_some _ _ _ hu0)
                      rw [hp, hu0id]
                    · rw [← hcons]
                      exact hchain
                  · intro u huu
                    apply hlast
                    rw [hcons] at huu ⊢
                    rw [List.getLast?_cons_cons] at huu
                    exact huu
                  · intro u huu
                    rw [show (n :: chainUp nodes g (x :: visited) p).head? =
                      some n from rfl] at huu
                    exact congrArg some (Option.some.inj huu)

/-- C4: on a structurally sound tree whose parent links terminate
upward, `getNodeChain(id)` for a stored id returns a non-empty
sequence whose last element is the node with id `id`, whose first
element is a root (`parentId` null), and in which every element after
the first has `parentId` equal to the id of the element immediately
before it. -/
theorem C4_getNodeChain_shape (t : ConversationTree) (h : Inv t)
    (hup : UpTerm t.nodes) (i : String) (hik : isKey t.nodes i) :
    getNodeChain t i ≠ [] ∧
    (∀ u, (getNodeChain t i).getLast? = some u → u.id = i) ∧
    (∀ u, (getNodeChain t i).head? = some u → u.parentId = none) ∧
    List.Chain' (fun a b => b.parentId = some a.id) (getNodeChain t i) := by
  have hkk : i ∈ keyList t.nodes := (isKey_iff_mem_keyList _ _).mp hik
  obtain ⟨l, hl⟩ := Option.isSome_iff_exists.mp (hup i hkk)
  have hnd := upPath_nodup t.nodes _ i l hl
  obtain ⟨hmap, hchain, hlast, hhead⟩ := chainUp_spec t.nodes h.wellKeyed
    (t.nodes.length + 1) i l hl hnd (t.nodes.length + 1) le_rfl [] (by simp)
  have hune : chainUp t.nodes (t.nodes.length + 1) [] i ≠ [] := by
    intro hnil
    rw [hnil] at hmap
    obtain ⟨l2, rfl⟩ := upPath_head t.nodes _ i l hl
    cases hmap
  refine ⟨?_, ?_, ?_, ?_⟩
  · show (chainUp t.nodes (t.nodes.length + 1) [] i).reverse ≠ []
    simpa using hune
  · intro u hu
    show u.id = i
    rw [show getNodeChain t i =
      (chainUp t.nodes (t.nodes.length + 1) [] i).reverse from rfl,
      List.getLast?_reverse] at hu
    have hlookup := hhead u hu
    exact h.wellKeyed (i, u) (mem_of_lookupN_eq_some _ _ _ hlookup)
  · intro u hu
    rw [show getNodeChain t i =
      (chainUp t.nodes (t.nodes.length + 1) [] i).reverse from rfl,
      List.head?_reverse] at hu
    exact hlast u hu
  · show List.Chain' _ (chainUp t.nodes (t.nodes.length + 1) [] i).reverse
    rw [List.chain'_reverse]
    exact hchain

/-! ### SessionCodec lemmas -/

theorem map_rebuild (nodes : List (String × ConversationNode))
    (hw : ∀ kn ∈ nodes, (kn : String × ConversationNode).2.id = kn.1) :
    (nodes.map Prod.snd).map (fun n => (n.id, n)) = nodes := by
  induction nodes with
  | nil => rfl
  | cons kn rest ih =>
      simp only [List.map_cons]
      rw [hw kn (List.mem_cons_self kn rest),
        ih (fun m hm => hw m (List.mem_cons_of_mem kn hm))]

theorem deserialize_exportToJSON (t : ConversationTree) (h : Inv t)
    (sn si : Option String) (now : String) :
    deserialize (exportToJSON t sn si now) =
      .ok { nodes := t.nodes,
            rootIds := ((t.nodes.map Prod.snd).filter
              (fun n => n.parentId == none)).map (fun n => n.id) } := by
  have h1 : deserialize (exportToJSON t sn si now) =
      .ok { nodes := (t.nodes.map Prod.snd).map (fun n => (n.id, n)),
            rootIds := ((t.nodes.map Prod.snd).filter
              (fun n => n.parentId == none)).map (fun n => n.id) } := rfl
  rw [h1, map_rebuild t.nodes h.wellKeyed]

theorem roundTrip_rootIds_mem (t : ConversationTree) (h : Inv t) (r : String) :
    r ∈ ((t.nodes.map Prod.snd).filter (fun n => n.parentId == none)).map
        (fun n => n.id) ↔ r ∈ t.rootIds := by
  constructor
  · intro hr
    rcases List.mem_map.mp hr with ⟨n, hn, rfl⟩
    rcases List.mem_filter.mp hn with ⟨hn2, hpar⟩
    rcases List.mem_map.mp hn2 with ⟨kn, hkn, rfl⟩
    have hp : kn.2.parentId = none := by simpa using hpar
    have hmem := (h.rootMem kn hkn).mp hp
    rwa [h.wellKeyed kn hkn]
  · intro hr
    obtain ⟨n, hlook⟩ := Option.isSome_iff_exists.mp (h.rootKey r hr)
    have hmem : (r, n) ∈ t.nodes := mem_of_lookupN_eq_some _ _ _ hlook
    have hp : n.parentId = none := (h.rootMem (r, n) hmem).mpr hr
    refine List.mem_map.mpr ⟨n, List.mem_filter.mpr
      ⟨List.mem_map.mpr ⟨(r, n), hmem, rfl⟩, by simp [hp]⟩, ?_⟩
    exact h.wellKeyed (r, n) hmem

theorem deserialize_recomputed_rootIds (doc : SessionDoc)
    (t' : ConversationTree) (h : deserialize doc = .ok t') :
    t'.rootIds =
      (doc.treeNodes.filter (fun n => n.parentId == none)).map
        (fun n => n.id) := by
  unfold deserialize at h
  by_cases hv : doc.version = "2.0"
  · rw [if_pos hv] at h
    cases h
    rfl
  · rw [if_neg hv] at h
    cases h

theorem deserialize_version_mismatch (doc : SessionDoc)
    (h : doc.version ≠ "2.0") : deserialize doc = .error .schemaError := by
  unfold deserialize
  rw [if_neg h]

theorem Inv_of_invB (t : ConversationTree) (h : invB t = true) : Inv t := by
  unfold invB at h
  simp only [Bool.and_eq_true, List.all_eq_true] at h
  obtain ⟨⟨⟨⟨⟨⟨⟨h1, h2⟩, h3⟩, h4⟩, h5⟩, h6⟩, h7⟩, h8⟩ := h
  constructor
  · intro kn hkn
    simpa using h1 kn hkn
  · exact of_decide_eq_true h2
  · exact of_decide_eq_true h3
  · intro kn hkn
    have := h4 kn hkn
    constructor
    · intro hp
      have hl : decide (kn.2.parentId = none) = true := decide_eq_true hp
      rw [hl] at this
      exact of_decide_eq_true (by simpa using this.symm)
    · intro hr
      have hl : decide (kn.1 ∈ t.rootIds) = true := decide_eq_true hr
      rw [hl] at this
      exact of_decide_eq_true (by simpa using this)
  · intro r hr
    exact of_decide_eq_true (h5 r hr)
  · intro kn hkn p hp
    have := h6 kn hkn
    simp only [hp] at this
    cases hl : lookupN t.nodes p with
    | none =>
        simp only [hl] at this
        exact absurd this (by decide)
    | some pn =>
        simp only [hl] at this
        exact ⟨pn, rfl, of_decide_eq_true this⟩
  · intro kn hkn mn hmn hc
    have := h7 kn hkn mn hmn
    rcases Bool.or_eq_true _ _ |>.mp this with hno | hyes
    · exact absurd hc (by simpa using hno)
    · exact of_decide_eq_true hyes
  · intro kn hkn c hc
    exact of_decide_eq_true ((h8 kn hkn) c hc)

/-! ### Export traversal lemmas -/

theorem flatMap_flatMap {α β γ : Type} (l : List α) (g : α → List β)
    (h : β → List γ) :
    (l.flatMap g).flatMap h = l.flatMap (fun x => (g x).flatMap h) := by
  induction l with
  | nil => rfl
  | cons a rest ih => simp [ih]

theorem mdTraverse_eq_dfsAug (nodes : List (String × ConversationNode)) :
    ∀ f i d, mdTraverse nodes f i d =
      (dfsAug nodes f i d).flatMap (mdBlockAt nodes) := by
  intro f
  induction f with
  | zero => intro i d; rfl
  | succ f ih =>
      intro i d
      show (match lookupN nodes i with
            | none => []
            | some n => mdNodeLines n i d ++
                n.childrenIds.flatMap (fun c => mdTraverse nodes f c (d + 1))) =
        ((match lookupN nodes i with
          | none => []
          | some n => (i, d) ::
              n.childrenIds.flatMap (fun c => dfsAug nodes f c (d + 1))) :
            List (String × Nat)).flatMap (mdBlockAt nodes)
      cases hl : lookupN nodes i with
      | none => rfl
      | some n =>
          have hblock : mdBlockAt nodes (i, d) = mdNodeLines n i d := by
            unfold mdBlockAt
            simp only [hl]
          have hrec : (fun c => mdTraverse nodes f c (d + 1)) =
              (fun c => (dfsAug nodes f c (d + 1)).flatMap (mdBlockAt nodes)) :=
            funext (fun c => ih c (d + 1))
          simp only [List.flatMap_cons, flatMap_flatMap, hblock, hrec]

theorem htmlTraverse_eq_dfsAug (nodes : List (String × ConversationNode)) :
    ∀ f i d, htmlTraverse nodes f i d =
      (dfsAug nodes f i d).flatMap (htmlBlockAt nodes) := by
  intro f
  induction f with
  | zero => intro i d; rfl
  | succ f ih =>
      intro i d
      show (match lookupN nodes i with
            | none => []
            | some n => htmlNodeLines n i d ++
                n.childrenIds.flatMap (fun c => htmlTraverse nodes f c (d + 1))) =
        ((match lookupN nodes i with
          | none => []
          | some n => (i, d) ::
              n.childrenIds.flatMap (fun c => dfsAug nodes f c (d + 1))) :
            List (String × Nat)).flatMap (htmlBlockAt nodes)
      cases hl : lookupN nodes i with
      | none => rfl
      | some n =>
          have hblock : htmlBlockAt nodes (i, d) = htmlNodeLines n i d := by
            unfold htmlBlockAt
            simp only [hl]
          have hrec : (fun c => htmlTraverse nodes f c (d + 1)) =
              (fun c => (dfsAug nodes f c (d + 1)).flatMap (htmlBlockAt nodes)) :=
            funext (fun c => ih c (d + 1))
          simp only [List.flatMap_cons, flatMap_flatMap, hblock, hrec]

theorem mdTraverse_missing (nodes : List (String × ConversationNode))
    (i : String) (hlook : lookupN nodes i = none) :
    ∀ f d, mdTraverse nodes f i d = [] := by
  intro f d
  cases f with
  | zero => rfl
  | succ f =>
      show (match lookupN nodes i with
            | none => []
            | some n => mdNodeLines n i d ++
                n.childrenIds.flatMap (fun c => mdTraverse nodes f c (d + 1))) = []
      simp only [hlook]

theorem htmlTraverse_missing (nodes : List (String × ConversationNode))
    (i : String) (hlook : lookupN nodes i = none) :
    ∀ f d, htmlTraverse nodes f i d = [] := by
  intro f d
  cases f with
  | zero => rfl
  | succ f =>
      show (match lookupN nodes i with
            | none => []
            | some n => htmlNodeLines n i d ++
                n.childrenIds.flatMap (fun c => htmlTraverse nodes f c (d + 1))) = []
      simp only [hlook]

theorem ReachD_trans (nodes : List (String × ConversationNode))
    (x y z : String) (h1 : ReachD nodes x y) (h2 : ReachD nodes y z) :
    ReachD nodes x z := by
  induction h2 with
  | refl _ => exact h1
  | snoc b c n hr hl hc hk ih => exact ReachD.snoc _ _ _ _ ih hl hc hk

theorem dfsAug_sound (nodes : List (String × ConversationNode)) :
    ∀ f i d y, y ∈ (dfsAug nodes f i d).map Prod.fst → ReachD nodes i y := by
  intro f
  induction f with
  | zero => intro i d y h; cases h
  | succ f ih =>
      intro i d y h
      rw [show dfsAug nodes (f + 1) i d =
          (match lookupN nodes i with
           | none => []
           | some n => (i, d) :: n.childrenIds.flatMap
               (fun c => dfsAug nodes f c (d + 1))) from rfl] at h
      cases hl : lookupN nodes i with
      | none => simp only [hl] at h; cases h
      | some n =>
          simp only [hl] at h
          have hki : isKey nodes i := by
            unfold isKey
            rw [hl]
            rfl
          simp only [List.map_cons, List.mem_cons] at h
          rcases h with rfl | h
          · exact ReachD.refl y hki
          · rcases List.mem_map.mp h with ⟨p, hp, rfl⟩
            rcases List.mem_flatMap.mp hp with ⟨c, hc, hpc⟩
            have hr := ih c (d + 1) p.1 (List.mem_map.mpr ⟨p, hpc, rfl⟩)
            have hkc : isKey nodes c := ReachD_isKey_start nodes c p.1 hr
            have h0 : ReachD nodes i c :=
              ReachD.snoc i i c n (ReachD.refl i hki) hl hc hkc
            exact ReachD_trans nodes i c p.1 h0 hr

theorem dfsAug_complete (nodes : List (String × ConversationNode)) :
    ∀ f i, downB nodes f i = true → ∀ y, ReachD nodes i y →
      ∀ d, y ∈ (dfsAug nodes f i d).map Prod.fst := by
  intro f
  induction f with
  | zero => intro i hdb; cases hdb
  | succ f ih =>
      intro i hdb y hr d
      have hki : isKey nodes i := ReachD_isKey_start nodes i y hr
      obtain ⟨n, hl⟩ := Option.isSome_iff_exists.mp hki
      have hdb' : n.childrenIds.all (downB nodes f) = true := by
        have hstep : downB nodes (f + 1) i =
            (match lookupN nodes i with
             | none => true
             | some m => m.childrenIds.all (downB nodes f)) := rfl
        rw [hstep] at hdb
        simpa only [hl] using hdb
      show y ∈ ((match lookupN nodes i with
          | none => []
          | some m => (i, d) :: m.childrenIds.flatMap
              (fun c => dfsAug nodes f c (d + 1))) :
            List (String × Nat)).map Prod.fst
      simp only [hl, List.map_cons, List.mem_cons]
      rcases ReachD_head_cases nodes i y hr with rfl | ⟨m, c, hm, hcm, hck, hr2⟩
      · exact Or.inl rfl
      · have hme : m = n := by
          rw [hl] at hm
          exact (Option.some.inj hm).symm
        subst hme
        have hdc : downB nodes f c = true := by
          rw [List.all_eq_true] at hdb'
          exact hdb' c hcm
        have hy := ih c hdc y hr2 (d + 1)
        rcases List.mem_map.mp hy with ⟨p, hp, rfl⟩
        exact Or.inr (List.mem_map.mpr ⟨p, List.mem_flatMap.mpr ⟨c, hcm, hp⟩, rfl⟩)

theorem mem_exportVisited_iff (t : ConversationTree)
    (hdt : DownTerm t.nodes) (y : String) :
    y ∈ exportVisited t ↔ ∃ r ∈ t.rootIds, ReachD t.nodes r y := by
  unfold exportVisited
  constructor
  · intro hy
    rcases List.mem_map.mp hy with ⟨p, hp, rfl⟩
    rcases List.mem_flatMap.mp hp with ⟨r, hr, hpr⟩
    exact ⟨r, hr, dfsAug_sound t.nodes _ r 0 p.1 (List.mem_map.mpr ⟨p, hpr, rfl⟩)⟩
  · rintro ⟨r, hr, hreach⟩
    have hkr : isKey t.nodes r := ReachD_isKey_start _ _ _ hreach
    have hdb : downB t.nodes (t.nodes.length + 1) r = true :=
      hdt r ((isKey_iff_mem_keyList _ _).mp hkr)
    have hy := dfsAug_complete t.nodes (t.nodes.length + 1) r hdb y hreach 0
    rcases List.mem_map.mp hy with ⟨p, hp, rfl⟩
    exact List.mem_map.mpr ⟨p, List.mem_flatMap.mpr ⟨r, hr, hp⟩, rfl⟩

theorem exportToMarkdownLines_factor (t : ConversationTree)
    (sn : Option String) (now : String) :
    exportToMarkdownLines t sn now =
      ["# " ++ strOr sn "InferFlow Conversation Export", "",
       "**Exported:** " ++ now,
       "**Total Nodes:** " ++ decString t.nodes.length, "", "---", ""] ++
        (t.rootIds.flatMap
          (fun r => dfsAug t.nodes (t.nodes.length + 1) r 0)).flatMap
          (mdBlockAt t.nodes) := by
  unfold exportToMarkdownLines
  rw [flatMap_flatMap]
  congr 1
  apply List.flatMap_congr
  intro r _
  exact mdTraverse_eq_dfsAug t.nodes (t.nodes.length + 1) r 0

theorem exportToHTMLLines_factor (t : ConversationTree)
    (sn : Option String) (now : String) :
    exportToHTMLLines t sn now =
      ["<!DOCTYPE html>", "<html lang=\"en\">", "<head>",
       "<meta charset=\"UTF-8\">",
       "<meta name=\"viewport\" content=\"width=device-width, initial-scale=1.0\">",
       "<title>" ++ strOr sn "InferFlow Conversation Export" ++ "</title>",
       "<style>", cssText, "</style>", "</head>", "<body>",
       "<div class=\"container\">",
       "<h1>" ++ strOr sn "InferFlow Conversation Export" ++ "</h1>",
       "<div class=\"metadata\">",
       "<p><strong>Exported:</strong> " ++ now ++ "</p>",
       "<p><strong>Total Nodes:</strong> " ++ decString t.nodes.length ++ "</p>",
       "</div>"] ++
        (t.rootIds.flatMap
          (fun r => dfsAug t.nodes (t.nodes.length + 1) r 0)).flatMap
          (htmlBlockAt t.nodes) ++
        ["</div>", "</body>", "</html>"] := by
  unfold exportToHTMLLines
  rw [flatMap_flatMap]
  congr 2
  apply List.flatMap_congr
  intro r _
  exact htmlTraverse_eq_dfsAug t.nodes (t.nodes.length + 1) r 0

/-! ### Claim theorems -/

/-- C1: after every TreeStore operation (`addNode`, `updateNode`,
`deleteNode`, `toggleCollapse`, `clearAll`) applied to a structurally
sound tree, every stored node's id appears in `rootIds` exactly when
its `parentId` is null, appears in the `childrenIds` of its parent
exactly when the parent is present in the map, and appears in
`rootIds` or in some node's `childrenIds` — never in both, never in
neither. -/
theorem C1_store_ops_referential_integrity (t : ConversationTree)
    (h : Inv t) :
    TreeConsistent clearAll ∧
    (∀ i u, TreeConsistent (updateNode t i u)) ∧
    (∀ i, TreeConsistent (toggleCollapse t i)) ∧
    (∀ i, TreeConsistent (deleteNode t i)) ∧
    (∀ nd t', nd.childrenIds = [] → addNode t nd = .ok t' →
      TreeConsistent t') :=
  ⟨Inv.treeConsistent clearAll Inv_clearAll,
   fun i u => Inv.treeConsistent _ (Inv_updateNode t h i u),
   fun i => Inv.treeConsistent _ (Inv_toggleCollapse t h i),
   fun i => Inv.treeConsistent _ (Inv_deleteNode t h i),
   fun nd t' hleaf ha => Inv.treeConsistent t' (Inv_addNode t h nd hleaf t' ha)⟩

theorem C1_store_ops_referential_integrity_witness :
    invB sampleTree = true ∧
    TreeConsistent (deleteNode sampleTree "a") :=
  ⟨by decide,
   (C1_store_ops_referential_integrity sampleTree
     (Inv_of_invB sampleTree (by decide))).2.2.2.1 "a"⟩

/-- C2: on a structurally sound tree, `deleteNode(id)` for a stored id
keeps exactly the ids not downward-reachable from `id` (so `id` and
every descendant are removed), prunes `id` from its parent's
`childrenIds` (or drops it from `rootIds` when `id` is a root), and
afterwards no remaining node's `childrenIds` and no `rootIds` entry
references any removed id. -/
theorem C2_deleteNode_cascade (t : ConversationTree) (h : Inv t)
    (i : String) (hik : isKey t.nodes i) :
    (∀ y, isKey (deleteNode t i).nodes y ↔
      (isKey t.nodes y ∧ ¬ ReachD t.nodes i y)) ∧
    (∀ n, lookupN t.nodes i = some n → ∀ p, n.parentId = some p →
      ∀ pn', lookupN (deleteNode t i).nodes p = some pn' →
        i ∉ pn'.childrenIds) ∧
    (∀ n, lookupN t.nodes i = some n → n.parentId = none →
      (deleteNode t i).rootIds = t.rootIds.filter (fun r => r != i)) ∧
    (∀ kn ∈ (deleteNode t i).nodes,
      ∀ c ∈ (kn : String × ConversationNode).2.childrenIds,
        ¬ ReachD t.nodes i c) ∧
    (∀ r ∈ (deleteNode t i).rootIds, ¬ ReachD t.nodes i r) :=
  ⟨deleteNode_key_iff t h i hik,
   fun n hlook p hp pn' hl' =>
     deleteNode_parent_pruned t i n hlook p hp pn' hl',
   fun n hlook hp => deleteNode_rootIds_root t i n hlook hp,
   deleteNode_no_stale_child t h i hik,
   deleteNode_no_stale_root t h i hik⟩

theorem C2_deleteNode_cascade_witness :
    invB sampleTree = true ∧ isKey sampleTree.nodes "a" ∧
    (isKey (deleteNode sampleTree "a").nodes "c" ↔
      (isKey sampleTree.nodes "c" ∧ ¬ ReachD sampleTree.nodes "a" "c")) :=
  ⟨by decide, by decide,
   (C2_deleteNode_cascade sampleTree (Inv_of_invB sampleTree (by decide))
     "a" (by decide)).1 "c"⟩

/-- C3: `exportToJSON` emits a `"2.0"`-versioned envelope holding the
node array, the stored `rootIds` and aggregate stats; on a
structurally sound tree, deserializing that envelope yields a tree
with the same node entries (hence the same node count and identical
content fields), with `rootIds` equal as a set; and `deserialize`
always recomputes `rootIds` by keeping exactly the nodes whose
`parentId` is null, never trusting the stored `rootIds`. -/
theorem C3_codec_round_trip (t : ConversationTree) (h : Inv t)
    (sn si : Option String) (now : String) :
    (exportToJSON t sn si now).version = "2.0" ∧
    (exportToJSON t sn si now).treeNodes = t.nodes.map Prod.snd ∧
    (exportToJSON t sn si now).treeRootIds = t.rootIds ∧
    (exportToJSON t sn si now).statsTotalNodes = t.nodes.length ∧
    (∃ t', deserialize (exportToJSON t sn si now) = .ok t' ∧
      t'.nodes = t.nodes ∧ t'.nodes.length = t.nodes.length ∧
      (∀ r, r ∈ t'.rootIds ↔ r ∈ t.rootIds)) ∧
    (∀ doc t'', deserialize doc = .ok t'' →
      t''.rootIds = (doc.treeNodes.filter
        (fun n => n.parentId == none)).map (fun n => n.id)) := by
  refine ⟨rfl, rfl, rfl, rfl, ?_, deserialize_recomputed_rootIds⟩
  refine ⟨_, deserialize_exportToJSON t h sn si now, rfl, rfl, ?_⟩
  intro r
  exact roundTrip_rootIds_mem t h r

theorem C3_codec_round_trip_witness :
    invB sampleTree = true ∧
    (exportToJSON sampleTree none none "t0").version = "2.0" ∧
    (∃ t', deserialize (exportToJSON sampleTree none none "t0") = .ok t' ∧
      t'.nodes = sampleTree.nodes ∧
      t'.nodes.length = sampleTree.nodes.length ∧
      (∀ r, r ∈ t'.rootIds ↔ r ∈ sampleTree.rootIds)) := by
  have h := C3_codec_round_trip sampleTree
    (Inv_of_invB sampleTree (by decide)) none none "t0"
  exact ⟨by decide, h.1, h.2.2.2.2.1⟩

theorem C4_getNodeChain_shape_witness :
    invB sampleTree = true ∧ UpTerm sampleTree.nodes ∧
    isKey sampleTree.nodes "c" ∧ getNodeChain sampleTree "c" ≠ [] := by
  have h := C4_getNodeChain_shape sampleTree
    (Inv_of_invB sampleTree (by decide)) (by decide) "c" (by decide)
  exact ⟨by decide, by decide, by decide, h.1⟩

/-- C5: `parseAnswerIntoSections` maps the empty string to the empty
sequence (not one empty section); a single-paragraph input (non-blank,
with no blank-line boundary and no interior numbered-item boundary)
yields exactly one section whose text is the input trimmed of
surrounding whitespace; and every result carries zero-based sequential
indices `0, 1, 2, …` and pairwise distinct ids. -/
theorem C5_parser_basic :
    parseAnswerIntoSections "" = [] ∧
    (∀ s, IsSingleParagraph s →
      parseAnswerIntoSections s =
        [{ id := "section-" ++ decString 0, text := ⟨trimChars s.data⟩,
           index := 0 }]) ∧
    (∀ s, (parseAnswerIntoSections s).map (fun a => a.index) =
      List.range (parseAnswerIntoSections s).length) ∧
    (∀ s, ((parseAnswerIntoSections s).map (fun a => a.id)).Nodup) :=
  ⟨parseAnswer_empty, parseAnswer_single, parseAnswer_index,
   parseAnswer_ids_nodup⟩

theorem C5_parser_basic_witness :
    IsSingleParagraph "  hello world  " ∧
    parseAnswerIntoSections "  hello world  " =
      [{ id := "section-" ++ decString 0,
         text := ⟨trimChars "  hello world  ".data⟩, index := 0 }] :=
  ⟨by decide, C5_parser_basic.2.1 "  hello world  " (by decide)⟩

/-- C6: `buildContext` skips exactly the chain nodes whose
`includeInContext` field is strictly `false` — an absent field means
include — and returns the empty string on the empty chain or when
every node of the chain carries `includeInContext = false`. -/
theorem C6_buildContext_filter :
    (∀ t sel chain, contextBlocks t sel chain =
      (chain.filter includedInContext).map (renderNodeBlock t sel)) ∧
    (∀ n : ConversationNode,
      includedInContext n = true ↔ n.includeInContext ≠ some false) ∧
    (∀ t sel, buildContext t [] sel = "") ∧
    (∀ t sel chain, (∀ n ∈ chain, n.includeInContext = some false) →
      buildContext t chain sel = "") :=
  ⟨fun t sel chain => contextBlocks_eq_filter_map t sel chain,
   includedInContext_iff,
   fun t sel => buildContext_nil t sel,
   fun t sel chain hall => buildContext_all_excluded t sel chain hall⟩

theorem C6_buildContext_filter_witness :
    (∀ n ∈ [{ mkNode "x" none [] with includeInContext := some false }],
      ConversationNode.includeInContext n = some false) ∧
    buildContext none
      [{ mkNode "x" none [] with includeInContext := some false }] none = "" :=
  ⟨by decide,
   C6_buildContext_filter.2.2.2 none none
     [{ mkNode "x" none [] with includeInContext := some false }] (by decide)⟩

/-- C7: with no `selectedSectionIndex`, `buildContext` renders each
unskipped chain node as its full labeled `Q:`/`A:` block and joins the
blocks in chain order with blank-line separation, so every included
node's question text occurs in the output. -/
theorem C7_buildContext_full_blocks (t : Option ConversationNode)
    (chain : List ConversationNode) :
    (∀ n : ConversationNode,
      fullBlock n = "Q: " ++ n.question ++ "\nA: " ++ n.answer) ∧
    (∀ n, renderNodeBlock t none n = fullBlock n) ∧
    buildContext t chain none =
      joinSep "\n\n" ((chain.filter includedInContext).map fullBlock) ∧
    (∀ n ∈ chain, includedInContext n = true →
      ∃ p q, buildContext t chain none =
        p ++ (("Q: " ++ n.question ++ "\nA: " ++ n.answer) ++ q)) :=
  ⟨fun _ => rfl,
   fun n => renderNodeBlock_no_sel t n,
   buildContext_no_sel t chain,
   fun n hn hinc => buildContext_question_infix t chain n hn hinc⟩

theorem C7_buildContext_full_blocks_witness :
    mkNode "y" none [] ∈ [mkNode "x" none [], mkNode "y" none []] ∧
    includedInContext (mkNode "y" none []) = true ∧
    (∃ p q,
      buildContext none [mkNode "x" none [], mkNode "y" none []] none =
        p ++ (("Q: " ++ (mkNode "y" none []).question ++ "\nA: " ++
          (mkNode "y" none []).answer) ++ q)) :=
  ⟨by decide, by decide,
   (C7_buildContext_full_blocks none
     [mkNode "x" none [], mkNode "y" none []]).2.2.2
     (mkNode "y" none []) (by decide) (by decide)⟩

/-- C8: when `selectedSectionIndex` is supplied and resolves to a
cached answer section of the target node, that section's text replaces
the node's full answer under the distinct label
`A (selected section): `; on the repository's two-section sample node
the output is exactly the question plus the selected section, and the
node's full original answer text does not occur in it. -/
theorem C8_selected_section (n : ConversationNode) (i : Nat)
    (secs : List AnswerSection) (sec : AnswerSection)
    (hsecs : n.answerSections = some secs)
    (hfind : sectionWithIndex secs i = some sec)
    (hinc : includedInContext n = true) :
    buildContext (some n) [n] (some i) =
      "Q: " ++ n.question ++ "\nA (selected section): " ++ sec.text ∧
    buildContext (some sampleSectionNode) [sampleSectionNode] (some 1) =
      "Q: Test question\nA (selected section): Section 2" ∧
    ¬ "Full answer".data <:+:
      (buildContext (some sampleSectionNode) [sampleSectionNode]
        (some 1)).data :=
  ⟨buildContext_selected n i secs sec hsecs hfind hinc, by decide, by decide⟩

theorem C8_selected_section_witness :
    sampleSectionNode.answerSections = some
      [{ id := "1", text := "Section 1", index := 0 },
       { id := "2", text := "Section 2", index := 1 }] ∧
    buildContext (some sampleSectionNode) [sampleSectionNode] (some 1) =
      "Q: " ++ sampleSectionNode.question ++ "\nA (selected section): " ++
        ({ id := "2", text := "Section 2", index := 1 } : AnswerSection).text :=
  ⟨rfl,
   (C8_selected_section sampleSectionNode 1
     [{ id := "1", text := "Section 1", index := 0 },
      { id := "2", text := "Section 2", index := 1 }]
     { id := "2", text := "Section 2", index := 1 }
     rfl (by decide) (by decide)).1⟩

/-- C9: both text exporters emit exactly the blocks of the depth-first
visit list grown from `rootIds` through stored `childrenIds`; an id
whose map entry is missing produces no output and no error; a stored
node unreachable from the roots is never visited (the visit list
contains precisely the ids reachable from some root); and
`exportToJSON`'s node array nevertheless contains every entry of the
map. -/
theorem C9_export_reachability (t : ConversationTree)
    (hdt : DownTerm t.nodes) (sn si : Option String) (now : String) :
    exportToMarkdownLines t sn now =
      ["# " ++ strOr sn "InferFlow Conversation Export", "",
       "**Exported:** " ++ now,
       "**Total Nodes:** " ++ decString t.nodes.length, "", "---", ""] ++
        (t.rootIds.flatMap
          (fun r => dfsAug t.nodes (t.nodes.length + 1) r 0)).flatMap
          (mdBlockAt t.nodes) ∧
    exportToHTMLLines t sn now =
      ["<!DOCTYPE html>", "<html lang=\"en\">", "<head>",
       "<meta charset=\"UTF-8\">",
       "<meta name=\"viewport\" content=\"width=device-width, initial-scale=1.0\">",
       "<title>" ++ strOr sn "InferFlow Conversation Export" ++ "</title>",
       "<style>", cssText, "</style>", "</head>", "<body>",
       "<div class=\"container\">",
       "<h1>" ++ strOr sn "InferFlow Conversation Export" ++ "</h1>",
       "<div class=\"metadata\">",
       "<p><strong>Exported:</strong> " ++ now ++ "</p>",
       "<p><strong>Total Nodes:</strong> " ++ decString t.nodes.length ++ "</p>",
       "</div>"] ++
        (t.rootIds.flatMap
          (fun r => dfsAug t.nodes (t.nodes.length + 1) r 0)).flatMap
          (htmlBlockAt t.nodes) ++
        ["</div>", "</body>", "</html>"] ∧
    (∀ y, y ∈ exportVisited t ↔ ∃ r ∈ t.rootIds, ReachD t.nodes r y) ∧
    (∀ j, ¬ isKey t.nodes j → ∀ f d,
      mdTraverse t.nodes f j d = [] ∧ htmlTraverse t.nodes f j d = []) ∧
    (∀ kn ∈ t.nodes, (kn : String × ConversationNode).2 ∈
      (exportToJSON t sn si now).treeNodes) := by
  refine ⟨exportToMarkdownLines_factor t sn now,
    exportToHTMLLines_factor t sn now,
    mem_exportVisited_iff t hdt, ?_, ?_⟩
  · intro j hj f d
    have hl := (lookupN_eq_none_iff t.nodes j).mpr hj
    exact ⟨mdTraverse_missing t.nodes j hl f d,
      htmlTraverse_missing t.nodes j hl f d⟩
  · intro kn hkn
    exact List.mem_map.mpr ⟨kn, hkn, rfl⟩

theorem C9_export_reachability_witness :
    DownTerm danglingTree.nodes ∧
    ("orphan" ∈ exportVisited danglingTree ↔
      ∃ r ∈ danglingTree.rootIds, ReachD danglingTree.nodes r "orphan") ∧
    "orphan" ∉ exportVisited danglingTree :=
  ⟨by decide,
   (C9_export_reachability danglingTree (by decide) none none "t0").2.2.1
     "orphan",
   by decide⟩

/-- C10: `exportToHTML` passes each visited node's display name,
question text, answer text, tag texts and attachment filenames through
`escapeHtml`; `escapeHtml` rewrites every character by the entity map
(ampersand, angle brackets, double and single quote to their HTML
entities, newline to a line break tag), so escaped newline-free text
contains no raw `<` or `>`, and every ampersand of any escaped text
starts one of the emitted entities. -/
theorem C10_escapeHtml_fields (n : ConversationNode) (nodeId : String)
    (depth : Nat) :
    (htmlNodeLines n nodeId depth).head? = some
      ("<h" ++ decString (hLevel depth) ++ ">" ++
        escapeHtml (displayNameOf n nodeId) ++ "</h" ++
        decString (hLevel depth) ++ ">") ∧
    "<p>" ++ escapeHtml n.question ++ "</p>" ∈ htmlNodeLines n nodeId depth ∧
    "<p>" ++ escapeHtml n.answer ++ "</p>" ∈ htmlNodeLines n nodeId depth ∧
    (∀ ts, n.tags = some ts → ts.isEmpty = false → ∀ tg ∈ ts,
      "<span class=\"tag\">" ++ escapeHtml tg ++ "</span>" ∈
        htmlNodeLines n nodeId depth) ∧
    (∀ (i : Nat) (att : Attachment), att.type = "image" →
      truthyS att.url = true →
      "<img src=\"" ++ att.url.getD "" ++ "\" alt=\"" ++
        escapeHtml (strOr att.filename ("Image " ++ decString (i + 1))) ++
        "\" />" ∈ htmlAttLines i att) ∧
    (∀ s : String, escapeHtml s = ⟨s.data.flatMap entity⟩) ∧
    (entity '&' = "&amp;".data ∧ entity '<' = "&lt;".data ∧
      entity '>' = "&gt;".data ∧ entity '"' = "&quot;".data ∧
      entity '\'' = "&#039;".data ∧ entity '\n' = "<br>".data) ∧
    (∀ s : String, '\n' ∉ s.data →
      '<' ∉ (escapeHtml s).data ∧ '>' ∉ (escapeHtml s).data) ∧
    (∀ s : String, ampOkB (escapeHtml s).data = true) := by
  refine ⟨rfl, ?_, ?_, ?_, ?_, ?_, ?_, ?_, ?_⟩
  · unfold htmlNodeLines
    simp
  · unfold htmlNodeLines
    simp
  · intro ts hts hne tg htg
    have hmem : "<span class=\"tag\">" ++ escapeHtml tg ++ "</span>" ∈
        htmlTagLines n := by
      unfold htmlTagLines
      simp only [hts, hne]
      rw [if_neg (by decide)]
      simp only [List.mem_append, List.mem_map]
      exact Or.inl (Or.inr ⟨tg, htg, rfl⟩)
    unfold htmlNodeLines
    simp only [List.cons_append, List.nil_append, List.mem_cons,
      List.mem_append]
    tauto
  · intro i att htype hurl
    unfold htmlAttLines
    rw [if_pos (by simp [htype, hurl])]
    simp
  · intro s
    exact congrArg String.mk (escapeChars_eq_flatMap s.data)
  · refine ⟨rfl, rfl, rfl, rfl, rfl, rfl⟩
  · intro s hs
    exact escapeChars_no_raw s.data hs
  · intro s
    exact ampOkB_escapeChars s.data

theorem C10_escapeHtml_fields_witness :
    (mkNode "m" none []).tags = none ∧
    ("a&b" : String).data.all (fun c => !(c == '\n')) = true ∧
    "<p>" ++ escapeHtml (mkNode "m" none []).question ++ "</p>" ∈
      htmlNodeLines (mkNode "m" none []) "m" 0 ∧
    ('<' ∉ (escapeHtml "a&b").data ∧ '>' ∉ (escapeHtml "a&b").data) ∧
    ampOkB (escapeHtml "a&b").data = true := by
  have h := C10_escapeHtml_fields (mkNode "m" none []) "m" 0
  exact ⟨rfl, by decide, h.2.1,
    h.2.2.2.2.2.2.2.1 "a&b" (by decide), h.2.2.2.2.2.2.2.2 "a&b"⟩

end Interflow
